import Mathlib

/-!
Verification of the Session Index and Search Core of the codex-history-viewer
extension, shallowly embedded in Lean.

Modelling conventions:
* A parsed JSON-Lines file is a `List Line`; a line is empty, unparseable
  (`JSON.parse` throws), or a parsed `Json` value.
* JavaScript strings are modelled as Lean `String`s (sequences of code points;
  JS indexes UTF-16 code units, which agrees on the Basic Multilingual Plane).
* JS `Date` values are epoch milliseconds (`Int`); the ambient local time zone
  is modelled as a fixed UTC offset in minutes passed explicitly.
* Asynchronous I/O is modelled by passing the observed file contents and stat
  results as explicit inputs.
-/

namespace CodexHistory

/-- A parsed JSON value (the result of a successful `JSON.parse`). -/
inductive Json where
  | null
  | bool (b : Bool)
  | num (n : Int)
  | str (s : String)
  | arr (items : List Json)
  | obj (fields : List (String × Json))

/-- Property lookup on a parsed JSON value: `v[k]` is `none` when `v` is not an
object or lacks the key (JS `undefined`); with duplicate keys `JSON.parse`
keeps the last occurrence. -/
def lookupLast (fields : List (String × Json)) (k : String) : Option Json :=
  match fields with
  | [] => none
  | (k', v) :: rest =>
    match lookupLast rest k with
    | some r => some r
    | none => if k' = k then some v else none

/-- `j.getField k` models the JS property access `j[k]` (or `j?.[k]`). -/
def Json.getField (j : Json) (k : String) : Option Json :=
  match j with
  | .obj fields => lookupLast fields k
  | _ => none

/-- Models `typeof j[k] === "string" ? j[k] : undefined`, and equality tests of
`j[k]` against a string literal. -/
def Json.getStr? (j : Json) (k : String) : Option String :=
  match j.getField k with
  | some (.str s) => some s
  | _ => none

/-- One line of a JSON-Lines file, as observed by the streaming readers. -/
inductive Line where
  | empty
  | bad
  | ok (j : Json)

/-- The ASCII whitespace class used by the JS regex `\s` and `String.trim`
(the Unicode space classes are out of scope of the session logs). -/
def isJsWs (c : Char) : Bool :=
  c = ' ' ∨ c = '\t' ∨ c = '\n' ∨ c = '\r' ∨ c = '\x0b' ∨ c = '\x0c'

/-- JS `String.prototype.trim`. -/
def jsTrimList (cs : List Char) : List Char :=
  ((cs.dropWhile isJsWs).reverse.dropWhile isJsWs).reverse

/-- JS `String.prototype.trim` on `String`. -/
def jsTrim (s : String) : String :=
  ⟨jsTrimList s.data⟩

/-- JS `String.prototype.split` with a single-character separator. -/
def splitOnCharGo (sep : Char) : List Char → List Char → List String
  | [], cur => [⟨cur.reverse⟩]
  | c :: rest, cur =>
    if c = sep then ⟨cur.reverse⟩ :: splitOnCharGo sep rest []
    else splitOnCharGo sep rest (c :: cur)

/-- JS `s.split(sep)` for a one-character separator `sep`. -/
def splitOnChar (sep : Char) (s : String) : List String :=
  splitOnCharGo sep s.data []

/-- The decimal digit character for `n < 10`. -/
def digitChar (n : Nat) : Char :=
  Char.ofNat (48 + n)

/-- Decimal digits of a natural number, most significant first (fuelled so the
definition is structural and kernel-reducible). -/
def natDigitsAux : Nat → Nat → List Char
  | 0, _ => []
  | fuel + 1, n =>
    if n < 10 then [digitChar n]
    else natDigitsAux fuel (n / 10) ++ [digitChar (n % 10)]

/-- JS `Number.prototype.toString` for natural numbers. -/
def natToString (n : Nat) : String :=
  ⟨natDigitsAux (n + 1) n⟩

/-- JS `Number.prototype.toString` for integers. -/
def intToString (i : Int) : String :=
  if i < 0 then "-" ++ natToString (-i).toNat else natToString i.toNat

/-- `pad2` from `dateUtils`: `n.toString().padStart(2, "0")`. -/
def pad2 (n : Nat) : String :=
  if n < 10 then "0" ++ natToString n else natToString n

/-- `normalizeWhitespace` step: deletes a space or tab standing (through other
deleted ones) directly before a newline — the regex `[ \t]+\n → \n`. -/
def stripWsBeforeNlStep (c : Char) (acc : List Char) : List Char :=
  if (c = ' ' ∨ c = '\t') ∧ acc.head? = some '\n' then acc else c :: acc

/-- `normalizeWhitespace` step: keeps at most two consecutive newlines — the
regex `\n{3,} → \n\n`. -/
def collapseNlStep (c : Char) (acc : List Char) : List Char :=
  if c = '\n' ∧ acc.take 2 = ['\n', '\n'] then acc else c :: acc

/-- Replaces each CRLF pair by LF — the regex `\r\n → \n`. -/
def replaceCrLf : List Char → List Char
  | [] => []
  | '\r' :: '\n' :: rest => '\n' :: replaceCrLf rest
  | c :: rest => c :: replaceCrLf rest

/-- `normalizeWhitespace` from `textUtils`. -/
def normalizeWhitespace (s : String) : String :=
  jsTrim ⟨List.foldr collapseNlStep []
    (List.foldr stripWsBeforeNlStep [] (replaceCrLf s.data))⟩

/-- Step collapsing each run of whitespace to a single space — the regex
`\s+ → " "` used by `singleLineSnippet`. -/
def collapseWsStep (c : Char) (acc : List Char) : List Char :=
  if isJsWs c then (if acc.head? = some ' ' then acc else ' ' :: acc) else c :: acc

/-- `singleLineSnippet` from `textUtils`. -/
def singleLineSnippet (s : String) (maxLen : Nat) : String :=
  let oneLine : String := jsTrim ⟨List.foldr collapseWsStep [] s.data⟩
  if oneLine.length ≤ maxLen then oneLine
  else ⟨oneLine.data.take (maxLen - 1)⟩ ++ "…"

/-- `safeDisplayPath` from `textUtils`: long paths keep their tail. -/
def safeDisplayPath (fsPath : String) (maxLen : Nat) : String :=
  if fsPath.length ≤ maxLen then fsPath
  else
    let tailLen := max 10 (3 * maxLen / 4)
    "…" ++ ⟨fsPath.data.drop (fsPath.data.length - tailLen)⟩

/-- JS `String.prototype.toLowerCase`, restricted to the ASCII range (`Char.toLower`
only lowers ASCII letters; the session-log heuristics only compare ASCII). -/
def jsToLower (s : String) : String :=
  ⟨s.data.map Char.toLower⟩

/-- Normalizes CRLF and lone CR to LF: `replace(/\r\n/g, "\n").replace(/\r/g, "\n")`. -/
def normNl (cs : List Char) : List Char :=
  (replaceCrLf cs).map fun c => if c = '\r' then '\n' else c

/-- The marker regex of `extractMyRequestForCodex`:
`^(?:#+\s*)?My request for Codex:\s*$` (case-insensitive), tested on a trimmed line. -/
def matchesMyRequestMarker (line : String) : Bool :=
  let t := jsTrimList line.data
  let afterHashes := (t.dropWhile (· = '#')).dropWhile isJsWs
  afterHashes.map Char.toLower = "my request for codex:".data

/-- `extractMyRequestForCodex` from `textUtils`. -/
def extractMyRequestForCodex (text : String) : Option String :=
  let lines := splitOnChar '\n' ⟨normNl text.data⟩
  match lines.findIdx? (fun l => matchesMyRequestMarker l) with
  | none => none
  | some markerIndex =>
    let body := jsTrim (String.intercalate "\n" (lines.drop (markerIndex + 1)))
    if body.length > 0 then some body else none

/-- A JS word character (`\w`): ASCII letter, digit, or underscore. -/
def isWordChar (c : Char) : Bool :=
  c.isAlpha ∨ c.isDigit ∨ c = '_'

/-- The heading regex of `extractUserContentFromHeading`:
`^#+\s*\[#\d+\]\s*User\s*$` (case-insensitive) on a trimmed line. -/
def matchesUserHeading (cs : List Char) : Bool :=
  let t1 := cs.dropWhile (· = '#')
  if cs.head? ≠ some '#' then false
  else
    match (t1.dropWhile isJsWs) with
    | '[' :: '#' :: t3 =>
      let t4 := t3.dropWhile Char.isDigit
      if t3.head?.map Char.isDigit ≠ some true then false
      else
        match t4 with
        | ']' :: t5 => (t5.dropWhile isJsWs).map Char.toLower = "user".data
        | _ => false
    | _ => false

/-- `extractUserContentFromHeading` from `textUtils`: strips a Markdown wrapper
like `## [#8] User` followed by metadata lines and a blank line. -/
def extractUserContentFromHeading (text : String) : Option String :=
  let lines := splitOnChar '\n' ⟨normNl text.data⟩
  match lines.findIdx? (fun l => (jsTrim l).length > 0) with
  | none => none
  | some firstNonEmpty =>
    let head := jsTrim (lines.getD firstNonEmpty "")
    if ¬ matchesUserHeading head.data then none
    else
      let rest := lines.drop (firstNonEmpty + 1)
      let metaCount := rest.takeWhile (fun l => (jsTrim l).length ≠ 0) |>.length
      let afterMeta := rest.drop metaCount
      let blankCount := afterMeta.takeWhile (fun l => (jsTrim l).length = 0) |>.length
      let body := jsTrim (String.intercalate "\n" (afterMeta.drop blankCount))
      if body.length > 0 then some body else none

/-- `extractUserRequestText` from `textUtils`. -/
def extractUserRequestText (text : String) : Option String :=
  let normalized := jsTrim ⟨normNl text.data⟩
  if normalized = "" then none
  else
    match extractMyRequestForCodex normalized with
    | some byMarker => some byMarker
    | none => extractUserContentFromHeading normalized

/-- `isBoilerplateUserMessage` from `sessionSummary`: environment/rule blocks
excluded from snippet and preview candidacy. -/
def isBoilerplateUserMessage (text : String) : Bool :=
  let t := jsTrimList text.data
  "<environment_context>".data.isPrefixOf t ∨
    "# AGENTS.md instructions".data.isPrefixOf t ∨
    "<INSTRUCTIONS>".data.isPrefixOf t

/-- `isUiTitleGenerationPrompt` from `sessionSummary`:
`/^Generate a concise UI title \(20-40 characters\) for this task\b/i`. -/
def isUiTitleGenerationPrompt (text : String) : Bool :=
  let low := (jsTrimList text.data).map Char.toLower
  let pre := "generate a concise ui title (20-40 characters) for this task".data
  pre.isPrefixOf low &&
    (match low.drop pre.length with
     | [] => true
     | c :: _ => ! isWordChar c)

/-- Helper for `String.prototype.indexOf`. -/
def idxOfAux (needle : List Char) : List Char → Nat → Option Nat
  | [], n => if needle.isEmpty then some n else none
  | c :: rest, n =>
    if needle.isPrefixOf (c :: rest) then some n else idxOfAux needle rest (n + 1)

/-- JS `hay.indexOf(needle)`, as an `Option` instead of `-1`. -/
def strIndexOf? (hay needle : String) : Option Nat :=
  idxOfAux needle.data hay.data 0

/-- `buildAround` from the search engine: up to 40 characters before and 80
after the match, ellipsized at truncated boundaries. -/
def buildAround (text : String) (hitAt needleLen : Nat) : String :=
  let start := hitAt - 40
  let stop := min text.length (hitAt + needleLen + 80)
  let head := if start > 0 then "…" else ""
  let tail := if stop < text.length then "…" else ""
  head ++ (⟨(text.data.drop start).take (stop - start)⟩ : String) ++ tail

/-- A calendar date, as produced by the JS `Date` accessors
(`getFullYear`, `getMonth() + 1`, `getDate`). -/
structure Ymd where
  year : Int
  month : Nat
  day : Nat
deriving DecidableEq, Repr

/-- Civil-calendar day count for 1-based `y-m-d` (days since 1970-01-01,
the standard Gregorian days-from-civil algorithm used by `Date.UTC`). -/
def daysFromCivil (y : Int) (m d : Nat) : Int :=
  let y := if m ≤ 2 then y - 1 else y
  let era := Int.fdiv y 400
  let yoe := (y - era * 400).toNat
  let mp : Nat := if m > 2 then m - 3 else m + 9
  let doy := (153 * mp + 2) / 5 + d - 1
  let doe := yoe * 365 + yoe / 4 - yoe / 100 + doy
  era * 146097 + (doe : Int) - 719468

/-- Inverse of `daysFromCivil` (the standard civil-from-days algorithm),
modelling the JS `Date` calendar accessors. -/
def civilFromDays (z : Int) : Ymd :=
  let z := z + 719468
  let era := Int.fdiv z 146097
  let doe := (z - era * 146097).toNat
  let yoe := (doe - doe / 1460 + doe / 36524 - doe / 146096) / 365
  let y : Int := (yoe : Int) + era * 400
  let doy := doe - (365 * yoe + yoe / 4 - yoe / 100)
  let mp := (5 * doy + 2) / 153
  let d := doy - (153 * mp + 2) / 5 + 1
  let m := if mp < 10 then mp + 3 else mp - 9
  { year := if m ≤ 2 then y + 1 else y, month := m, day := d }

/-- The civil day holding epoch instant `ms` in the local zone `tz`
(a fixed UTC offset in minutes). -/
def localDays (tz ms : Int) : Int :=
  Int.fdiv (ms + tz * 60000) 86400000

/-- Milliseconds into the local civil day. -/
def localMsOfDay (tz ms : Int) : Nat :=
  (ms + tz * 60000 - localDays tz ms * 86400000).toNat

/-- `toYmdLocal` from `dateUtils` (local-time `Date` accessors). -/
def toYmdLocal (tz ms : Int) : Ymd :=
  civilFromDays (localDays tz ms)

/-- `ymdToString` from `dateUtils`. -/
def ymdToString (ymd : Ymd) : String :=
  intToString ymd.year ++ "-" ++ pad2 ymd.month ++ "-" ++ pad2 ymd.day

/-- `formatTimeHmLocal` from `dateUtils`: zero-padded `HH:MM` of the local time. -/
def formatTimeHmLocal (tz ms : Int) : String :=
  pad2 (localMsOfDay tz ms / 3600000) ++ ":" ++ pad2 (localMsOfDay tz ms % 3600000 / 60000)

/-- Reads exactly `n` decimal digits, returning their value and the rest. -/
def takeDigitsGo : Nat → Nat → List Char → Option (Nat × List Char)
  | 0, acc, cs => some (acc, cs)
  | _ + 1, _, [] => none
  | n + 1, acc, c :: cs =>
    if c.isDigit then takeDigitsGo n (acc * 10 + (c.toNat - 48)) cs else none

/-- Reads exactly `n` decimal digits. -/
def takeDigits (n : Nat) (cs : List Char) : Option (Nat × List Char) :=
  takeDigitsGo n 0 cs

/-- Gregorian leap-year test. -/
def isLeapYear (y : Nat) : Bool :=
  y % 4 = 0 && (y % 100 ≠ 0 || y % 400 = 0)

/-- Number of days in month `m` of year `y`. -/
def daysInMonth (y m : Nat) : Nat :=
  if m = 2 then (if isLeapYear y then 29 else 28)
  else if m = 4 ∨ m = 6 ∨ m = 9 ∨ m = 11 then 30
  else 31

/-- Parses the `Z` / `±HH:MM` / `±HHMM` zone designator at the end of an ISO
timestamp, returning the offset east of UTC in minutes. -/
def parseZone? : List Char → Option Int
  | ['Z'] => some 0
  | sign :: rest =>
    if sign = '+' ∨ sign = '-' then
      match rest with
      | [h1, h2, ':', m1, m2] =>
        match takeDigits 2 [h1, h2], takeDigits 2 [m1, m2] with
        | some (hh, _), some (mm, _) =>
          if hh ≤ 23 ∧ mm ≤ 59 then
            some (if sign = '-' then -((hh : Int) * 60 + mm) else (hh : Int) * 60 + mm)
          else none
        | _, _ => none
      | [h1, h2, m1, m2] =>
        match takeDigits 2 [h1, h2], takeDigits 2 [m1, m2] with
        | some (hh, _), some (mm, _) =>
          if hh ≤ 23 ∧ mm ≤ 59 then
            some (if sign = '-' then -((hh : Int) * 60 + mm) else (hh : Int) * 60 + mm)
          else none
        | _, _ => none
      | _ => none
    else none
  | [] => none

/-- Parses the fractional-seconds part `.d+`, returning milliseconds
(the first three fraction digits, right-padded with zeros). -/
def parseFraction? : List Char → Option (Nat × List Char)
  | '.' :: rest =>
    let ds := rest.takeWhile Char.isDigit
    if ds.isEmpty then none
    else
      let ms3 := (ds.take 3) ++ List.replicate (3 - ds.length) '0'
      match takeDigits 3 ms3 with
      | some (v, _) => some (v, rest.drop ds.length)
      | none => none
  | cs => some (0, cs)

/-- The time-of-day and zone tail of an ISO timestamp (`HH:MM[:SS[.sss]][zone]`),
returning milliseconds into the day and the zone offset (`none` = no designator,
interpreted as local time). -/
def parseTimeTail? (cs : List Char) : Option (Nat × Option Int) :=
  match takeDigits 2 cs with
  | none => none
  | some (hh, rest) =>
    match rest with
    | ':' :: rest2 =>
      match takeDigits 2 rest2 with
      | none => none
      | some (mm, rest3) =>
        let secPart : Option (Nat × Nat × List Char) :=
          match rest3 with
          | ':' :: rest4 =>
            match takeDigits 2 rest4 with
            | none => none
            | some (ss, rest5) =>
              match parseFraction? rest5 with
              | none => none
              | some (msv, rest6) => some (ss, msv, rest6)
          | _ => some (0, 0, rest3)
        match secPart with
        | none => none
        | some (ss, msv, restZ) =>
          if mm ≤ 59 ∧ ss ≤ 59 ∧
              (hh ≤ 23 ∨ (hh = 24 ∧ mm = 0 ∧ ss = 0 ∧ msv = 0)) then
            let ofDay := hh * 3600000 + mm * 60000 + ss * 1000 + msv
            match restZ with
            | [] => some (ofDay, none)
            | _ =>
              match parseZone? restZ with
              | some off => some (ofDay, some off)
              | none => none
          else none
    | _ => none

/-- Models `Date.parse` / `new Date(string)` on the ISO-8601 date and date-time
formats produced in the session logs (`YYYY[-MM[-DD]][THH:MM[:SS[.f+]][Z|±HH:MM]]`).
Date-only forms are UTC; a date-time without zone designator is local time in
the fixed offset `tz`. Legacy non-ISO `Date.parse` formats never occur in the
logs and are modelled as unparseable. -/
def parseIsoTimestamp (tz : Int) (s : String) : Option Int :=
  let cs := s.data
  match takeDigits 4 cs with
  | none => none
  | some (y, rest) =>
    let dmd : Option (Nat × Nat × List Char) :=
      match rest with
      | '-' :: rest2 =>
        match takeDigits 2 rest2 with
        | none => none
        | some (m, rest3) =>
          match rest3 with
          | '-' :: rest4 =>
            match takeDigits 2 rest4 with
            | none => none
            | some (d, rest5) => some (m, d, rest5)
          | _ => some (m, 1, rest3)
      | _ => some (1, 1, rest)
    match dmd with
    | none => none
    | some (m, d, rest') =>
      if 1 ≤ m ∧ m ≤ 12 ∧ 1 ≤ d ∧ d ≤ daysInMonth y m then
        let dayMs : Int := daysFromCivil (y : Int) m d * 86400000
        match rest' with
        | [] => some dayMs
        | 'T' :: timePart =>
          match parseTimeTail? timePart with
          | none => none
          | some (ofDay, zone) =>
            match zone with
            | some off => some (dayMs + (ofDay : Int) - off * 60000)
            | none => some (dayMs + (ofDay : Int) - tz * 60000)
        | _ => none
      else none

/-- Segments of a slash-separated path. -/
def pathSegs (p : String) : List String :=
  (splitOnChar '/' p).filter (fun s => s ≠ "")

/-- Resolves `.` and `..` segments (POSIX). `isAbs` tells whether leading `..`
segments may be dropped. -/
def normSegsGo (isAbs : Bool) : List String → List String → List String
  | [], acc => acc.reverse
  | s :: rest, acc =>
    if s = "." then normSegsGo isAbs rest acc
    else if s = ".." then
      match acc with
      | [] => if isAbs then normSegsGo isAbs rest [] else normSegsGo isAbs rest [".."]
      | top :: more =>
        if top = ".." then normSegsGo isAbs rest (s :: acc)
        else normSegsGo isAbs rest more
    else normSegsGo isAbs rest (s :: acc)

/-- Models `path.posix.normalize` on file paths (no Windows drive handling;
trailing-slash preservation is irrelevant for the session file paths). -/
def pathNormalize (p : String) : String :=
  let isAbs := p.data.head? = some '/'
  let segs := normSegsGo isAbs (pathSegs p) []
  if isAbs then "/" ++ String.intercalate "/" segs
  else if segs.isEmpty then "." else String.intercalate "/" segs

/-- Models `path.relative(root, p)` for absolute POSIX paths: drop the common
prefix, then climb with `..` for the remaining root segments. -/
def pathRelative (root p : String) : String :=
  let rs := normSegsGo true (pathSegs root) []
  let ps := normSegsGo true (pathSegs p) []
  let common := ((rs.zip ps).takeWhile fun q => q.1 = q.2).length
  String.intercalate "/" (List.replicate (rs.length - common) ".." ++ ps.drop common)

/-- `path.basename` for POSIX paths. -/
def basename (p : String) : String :=
  (pathSegs p).getLastD p

/-- `normalizeCacheKey` from `fsUtils`, on a non-Windows platform:
`path.normalize` (no lower-casing). -/
def normalizeCacheKey (fsPath : String) : String :=
  pathNormalize fsPath

/-- Metadata taken from the `session_meta` payload (all fields optional). -/
structure SessionMetaInfo where
  id : Option String := none
  timestampIso : Option String := none
  cwd : Option String := none
  originator : Option String := none
  cliVersion : Option String := none
  modelProvider : Option String := none
  source : Option String := none
deriving DecidableEq, Repr

/-- Models `x ?? {}` after a property access, and the later optional-chained
accesses `x?.k` (a `null` or missing payload yields no fields either way). -/
def jsonOrEmpty (o : Option Json) : Json :=
  match o with
  | none => .obj []
  | some .null => .obj []
  | some j => j

/-- `tryReadSessionMeta` from `sessionSummary`: parses the first line and
returns `none` on a missing/empty first line, a JSON parse failure, or a
record whose `type` is not `session_meta`. -/
def tryReadSessionMeta (lines : List Line) : Option SessionMetaInfo :=
  match lines.head? with
  | some (.ok j) =>
    if j.getStr? "type" = some "session_meta" then
      let payload := jsonOrEmpty (j.getField "payload")
      some { id := payload.getStr? "id"
             timestampIso := payload.getStr? "timestamp"
             cwd := payload.getStr? "cwd"
             originator := payload.getStr? "originator"
             cliVersion := payload.getStr? "cli_version"
             modelProvider := payload.getStr? "model_provider"
             source := payload.getStr? "source" }
    else none
  | _ => none

/-- Decimal value of a digit string. -/
def decValue (cs : List Char) : Nat :=
  cs.foldl (fun a c => a * 10 + (c.toNat - 48)) 0

/-- `inferYmdFromPath` from `sessionSummary`: infers the date from the
`YYYY/MM/DD` directory structure of the path relative to the sessions root. -/
def inferYmdFromPath (sessionsRoot fsPath : String) : Option Ymd :=
  let rel := pathRelative sessionsRoot fsPath
  let parts := splitOnChar '/' rel
  match parts with
  | y :: m :: d :: _ :: _ =>
    if (y.data.all Char.isDigit ∧ y.length = 4) ∧
        (m.data.all Char.isDigit ∧ m.length = 2) ∧
        (d.data.all Char.isDigit ∧ d.length = 2) then
      let year := decValue y.data
      let month := decValue m.data
      let day := decValue d.data
      if 1970 ≤ year ∧ year ≤ 9999 ∧ 1 ≤ month ∧ month ≤ 12 ∧ 1 ≤ day ∧ day ≤ 31 then
        some { year := (year : Int), month := month, day := day }
      else none
    else none
  | _ => none

/-- `buildPreviewTextParts` / `extractTextFromContent`: concatenates the string
`text` fields of the items of `payload.content`. -/
def buildPreviewTextParts (content : Json) : String :=
  match content with
  | .arr items => String.join (items.filterMap fun it => it.getStr? "text")
  | _ => ""

/-- A preview message (role is `"user"` or `"assistant"`). -/
structure PreviewMessage where
  role : String
  text : String
deriving DecidableEq, Repr

/-- Tooltip truncation of extremely long preview text. -/
def previewTruncate (text : String) : String :=
  if text.length > 1200 then (⟨text.data.take 1199⟩ : String) ++ "…" else text

/-- Loop of `readPreviewMessages` (the JS code appends to `result` and breaks
once `maxMessages` entries are collected). -/
def readPreviewMessagesGo (maxMessages : Nat) :
    List Line → List PreviewMessage → List PreviewMessage
  | [], acc => acc
  | l :: rest, acc =>
    if acc.length ≥ maxMessages then acc
    else
      match l with
      | .empty => readPreviewMessagesGo maxMessages rest acc
      | .bad => readPreviewMessagesGo maxMessages rest acc
      | .ok j =>
        if j.getStr? "type" ≠ some "response_item" then
          readPreviewMessagesGo maxMessages rest acc
        else
          let payload := jsonOrEmpty (j.getField "payload")
          if payload.getStr? "type" ≠ some "message" then
            readPreviewMessagesGo maxMessages rest acc
          else
            match payload.getStr? "role" with
            | some role =>
              if role = "user" ∨ role = "assistant" then
                let textRaw := buildPreviewTextParts (jsonOrEmpty (payload.getField "content"))
                let textNormalized := normalizeWhitespace textRaw
                let text :=
                  if role = "user" then (extractUserRequestText textNormalized).getD textNormalized
                  else textNormalized
                if text = "" then readPreviewMessagesGo maxMessages rest acc
                else if role = "user" ∧ isBoilerplateUserMessage text then
                  readPreviewMessagesGo maxMessages rest acc
                else readPreviewMessagesGo maxMessages rest (acc ++ [⟨role, previewTruncate text⟩])
              else readPreviewMessagesGo maxMessages rest acc
            | none => readPreviewMessagesGo maxMessages rest acc

/-- `readPreviewMessages` from `sessionSummary`. -/
def readPreviewMessages (lines : List Line) (maxMessages : Nat) : List PreviewMessage :=
  readPreviewMessagesGo maxMessages lines []

/-- `pickSessionSnippetSource` from `sessionSummary`: first non-empty user
message, or the following assistant message when that user message is the
UI-title generation prompt. -/
def pickSessionSnippetSource (messages : List PreviewMessage) : Option String :=
  match messages.findIdx? (fun m => decide (m.role = "user" ∧ 0 < (jsTrim m.text).length)) with
  | none => none
  | some firstUserIndex =>
    let firstUser := jsTrim ((messages.getD firstUserIndex ⟨"", ""⟩).text)
    if isUiTitleGenerationPrompt firstUser then
      match (messages.drop (firstUserIndex + 1)).find?
          (fun m => decide (m.role = "assistant" ∧ 0 < (jsTrim m.text).length)) with
      | some nextAssistant => some (jsTrim nextAssistant.text)
      | none => some firstUser
    else some firstUser

/-- A file's stat fingerprint. -/
structure Stat where
  mtimeMs : Int
  size : Nat
deriving DecidableEq, Repr

/-- A session log file as observed on disk: the stat result (`none` when the
file cannot be stat'd) and its parsed lines. -/
structure FileData where
  stat : Option Stat
  lines : List Line

/-- The summary record built by the Extractor. -/
structure SessionSummary where
  fsPath : String
  cacheKey : String
  meta : SessionMetaInfo
  inferredYmd : Option Ymd
  localDate : String
  timeLabel : String
  snippet : String
  cwdShort : String
  previewMessages : List PreviewMessage
deriving DecidableEq, Repr

/-- The parsed session start instant: `meta.timestampIso ? new Date(...) : null`
followed by the `NaN` check (an empty string is falsy in JS). -/
def sessionStartMs (tz : Int) (meta : SessionMetaInfo) : Option Int :=
  match meta.timestampIso with
  | none => none
  | some ts => if ts = "" then none else parseIsoTimestamp tz ts

/-- `buildSessionSummary` from `sessionSummary`. -/
def buildSessionSummary (tz : Int) (sessionsRoot fsPath : String)
    (previewMaxMessages : Nat) (fd : FileData) : Option SessionSummary :=
  match fd.stat with
  | none => none
  | some stat =>
    let cacheKey := normalizeCacheKey fsPath
    let meta := (tryReadSessionMeta fd.lines).getD {}
    let inferred := inferYmdFromPath sessionsRoot fsPath
    let startLocal := sessionStartMs tz meta
    let ymd :=
      match inferred with
      | some y => y
      | none =>
        match startLocal with
        | some ms => toYmdLocal tz ms
        | none => toYmdLocal tz stat.mtimeMs
    let localDate := ymdToString ymd
    let timeLabel :=
      match startLocal with
      | some ms => formatTimeHmLocal tz ms
      | none => "--:--"
    let previewMessages := readPreviewMessages fd.lines previewMaxMessages
    let snippet :=
      match pickSessionSnippetSource previewMessages with
      | some src => singleLineSnippet src 70
      | none => basename fsPath
    let cwdShort :=
      match meta.cwd with
      | some c => if c = "" then "" else safeDisplayPath c 80
      | none => ""
    some { fsPath := fsPath, cacheKey := cacheKey, meta := meta, inferredYmd := inferred,
           localDate := localDate, timeLabel := timeLabel, snippet := snippet,
           cwdShort := cwdShort, previewMessages := previewMessages }

/-- A search candidate: the summary fields the search engine reads, plus the
session file's lines (the engine re-reads the file at `s.fsPath`). -/
structure Session where
  fsPath : String
  cacheKey : String
  localDate : String
  timeLabel : String
  lines : List Line

/-- A search hit: 1-based message index within the file, role, snippet. -/
structure SearchHit where
  messageIndex : Nat
  role : String
  snippet : String
deriving DecidableEq, Repr

/-- The needle actually compared: `caseSensitive ? query : query.toLowerCase()`. -/
def searchNeedle (caseSensitive : Bool) (query : String) : String :=
  if caseSensitive then query else jsToLower query

/-- Per-line outcome of the checks in `searchSessions`'s inner loop:
skipped, or a counted user/assistant message with its match position. -/
inductive LineClass where
  | skip
  | message (role text : String) (hitAt : Option Nat)

/-- The per-line classification sequence of `searchSessions` (record type,
payload type, role, non-empty normalized text, substring test), factored out
of the loop. -/
def classifyLine (caseSensitive : Bool) (needle : String) (l : Line) : LineClass :=
  match l with
  | .empty => .skip
  | .bad => .skip
  | .ok j =>
    if j.getStr? "type" ≠ some "response_item" then .skip
    else
      let payload := jsonOrEmpty (j.getField "payload")
      if payload.getStr? "type" ≠ some "message" then .skip
      else
        match payload.getStr? "role" with
        | some role =>
          if role = "user" ∨ role = "assistant" then
            let text := normalizeWhitespace
              (buildPreviewTextParts (jsonOrEmpty (payload.getField "content")))
            if text = "" then .skip
            else
              let hay := if caseSensitive then text else jsToLower text
              .message role text (strIndexOf? hay needle)
          else .skip
        | none => .skip

/-- State of a search run: number of cancellation checks performed so far, the
running hit total, and the per-session hit map (a JS `Map` in insertion order). -/
structure SearchAcc where
  checks : Nat
  totalHits : Nat
  bySession : List (String × Session × List SearchHit)

/-- Models `bySession.get(key).hits.push(hit)` with `Map` insertion-order
semantics. -/
def pushHit (m : List (String × Session × List SearchHit)) (s : Session) (h : SearchHit) :
    List (String × Session × List SearchHit) :=
  if m.any (fun e => e.1 == s.cacheKey) then
    m.map (fun e => if e.1 = s.cacheKey then (e.1, e.2.1, e.2.2 ++ [h]) else e)
  else m ++ [(s.cacheKey, s, [h])]

/-- The cancellation token, modelled as the index of the first cancellation
check at which `isCancellationRequested` reads true (`none`: never cancelled;
tokens are monotone, so it stays true afterwards). -/
def isCancelled : Option Nat → Nat → Bool
  | none, _ => false
  | some c, i => decide (c ≤ i)

/-- The inner (per-line) loop of `searchSessions`: cancellation check, cap
check, line classification, message counting, hit collection and the
double cap break. Returns `none` on cancellation, else the message counter
and updated state. -/
def scanLines (caseSensitive : Bool) (query needle : String) (maxResults : Nat)
    (cancelAt : Option Nat) (s : Session) :
    List Line → Nat → SearchAcc → Option (Nat × SearchAcc)
  | [], msgIndex, acc => some (msgIndex, acc)
  | l :: rest, msgIndex, acc =>
    if isCancelled cancelAt acc.checks then none
    else
      let acc1 : SearchAcc := { acc with checks := acc.checks + 1 }
      if acc1.totalHits ≥ maxResults then some (msgIndex, acc1)
      else
        match classifyLine caseSensitive needle l with
        | .skip => scanLines caseSensitive query needle maxResults cancelAt s rest msgIndex acc1
        | .message role text hitAt =>
          match hitAt with
          | none =>
            scanLines caseSensitive query needle maxResults cancelAt s rest (msgIndex + 1) acc1
          | some hitPos =>
            let snippet := singleLineSnippet (buildAround text hitPos query.length) 160
            let hit : SearchHit := ⟨msgIndex + 1, role, snippet⟩
            let acc2 : SearchAcc :=
              { acc1 with totalHits := acc1.totalHits + 1,
                          bySession := pushHit acc1.bySession s hit }
            if acc2.totalHits ≥ maxResults then some (msgIndex + 1, acc2)
            else scanLines caseSensitive query needle maxResults cancelAt s rest (msgIndex + 1) acc2

/-- The outer (per-file) loop of `searchSessions`: cancellation check at each
file boundary, then the line scan; `none` propagates cancellation. -/
def searchGo (caseSensitive : Bool) (query needle : String) (maxResults : Nat)
    (cancelAt : Option Nat) : List Session → SearchAcc → Option SearchAcc
  | [], acc => some acc
  | s :: rest, acc =>
    if isCancelled cancelAt acc.checks then none
    else
      let acc1 : SearchAcc := { acc with checks := acc.checks + 1 }
      match scanLines caseSensitive query needle maxResults cancelAt s s.lines 0 acc1 with
      | none => none
      | some (_, acc2) => searchGo caseSensitive query needle maxResults cancelAt rest acc2

/-- Search post-processing order on per-session groups: newest session first
(date, then time label), mirroring the JS comparator. -/
def sessionHitsBefore (a b : Session × List SearchHit) : Prop :=
  b.1.localDate < a.1.localDate ∨
    (a.1.localDate = b.1.localDate ∧ b.1.timeLabel ≤ a.1.timeLabel)

/-- Hit order within a session: ascending message index. -/
def hitBefore (a b : SearchHit) : Prop :=
  a.messageIndex ≤ b.messageIndex

instance : DecidableRel sessionHitsBefore := fun _ _ =>
  inferInstanceAs (Decidable (_ ∨ _))

instance : DecidableRel hitBefore := fun _ _ =>
  inferInstanceAs (Decidable (_ ≤ _))

/-- The result of a completed search. -/
structure SearchOutcome where
  totalHits : Nat
  sessions : List (Session × List SearchHit)

/-- `searchSessions` from the search engine: `none` models the `null` returned
on cancellation. JS `Array.prototype.sort` is stable, so it is modelled by the
(stable) insertion sort with the comparator's before-or-equal relation. -/
def searchSessions (sessions : List Session) (query : String) (maxResults : Nat)
    (caseSensitive : Bool) (cancelAt : Option Nat) : Option SearchOutcome :=
  let needle := searchNeedle caseSensitive query
  match searchGo caseSensitive query needle maxResults cancelAt sessions ⟨0, 0, []⟩ with
  | none => none
  | some acc =>
    let list := acc.bySession.map (fun e => (e.2.1, e.2.2))
    let sorted := (List.insertionSort sessionHitsBefore list).map
      (fun e => (e.1, List.insertionSort hitBefore e.2))
    some ⟨acc.totalHits, sorted⟩

/-- Number of cancellation checks the search performs when never cancelled. -/
def searchChecks (sessions : List Session) (query : String) (maxResults : Nat)
    (caseSensitive : Bool) : Nat :=
  match searchGo caseSensitive query (searchNeedle caseSensitive query) maxResults none
      sessions ⟨0, 0, []⟩ with
  | some acc => acc.checks
  | none => 0

/-- Whether a line is a user/assistant message with non-empty normalized text
that matches the needle (independent of cap and cancellation). -/
def lineIsMatch (caseSensitive : Bool) (needle : String) (l : Line) : Bool :=
  match classifyLine caseSensitive needle l with
  | .message _ _ (some _) => true
  | _ => false

/-- Number of matching message lines in one file. -/
def countLineMatches (caseSensitive : Bool) (needle : String) (lines : List Line) : Nat :=
  (lines.filter (lineIsMatch caseSensitive needle)).length

/-- Total number of matching messages across all candidate files. -/
def totalMatches (caseSensitive : Bool) (query : String) (sessions : List Session) : Nat :=
  (sessions.map fun s =>
    countLineMatches caseSensitive (searchNeedle caseSensitive query) s.lines).sum

/-- Reference hit list for one file: every user/assistant message with
non-empty normalized text gets the next 1-based display index whether or not
it matches, and exactly the matching ones produce hits. -/
def hitsSpecGo (caseSensitive : Bool) (query needle : String) :
    List Line → Nat → List SearchHit
  | [], _ => []
  | l :: rest, msgIndex =>
    match classifyLine caseSensitive needle l with
    | .skip => hitsSpecGo caseSensitive query needle rest msgIndex
    | .message role text hitAt =>
      match hitAt with
      | none => hitsSpecGo caseSensitive query needle rest (msgIndex + 1)
      | some hitPos =>
        ⟨msgIndex + 1, role, singleLineSnippet (buildAround text hitPos query.length) 160⟩ ::
          hitsSpecGo caseSensitive query needle rest (msgIndex + 1)

/-- Reference hit list for one file, starting the display counter at zero. -/
def hitsSpec (caseSensitive : Bool) (query : String) (lines : List Line) : List SearchHit :=
  hitsSpecGo caseSensitive query (searchNeedle caseSensitive query) lines 0

/-- `SUMMARY_CACHE_ALGO_VERSION` from `historyService`. -/
def summaryCacheAlgoVersion : Nat := 3

/-- One cache entry: fingerprint (mtime, size) plus the stored summary. -/
structure CacheEntryV1 where
  mtimeMs : Int
  size : Nat
  summary : SessionSummary
deriving DecidableEq, Repr

/-- The persisted cache document (`cache.v4.json`). -/
structure CacheFileV4 where
  version : Nat
  summaryAlgoVersion : Nat
  sessionsRoot : String
  previewMaxMessages : Nat
  dateTimeSettingsKey : String
  entries : List (String × CacheEntryV1)
deriving DecidableEq, Repr

/-- JS object / `Map` key lookup on an association list. -/
def alLookup {β : Type} (m : List (String × β)) (k : String) : Option β :=
  match m with
  | [] => none
  | (k', v) :: rest => if k' = k then some v else alLookup rest k

/-- JS object property assignment `m[k] = v`: overwrites in place, appends a
new key at the end. -/
def alUpsert {β : Type} (m : List (String × β)) (k : String) (v : β) : List (String × β) :=
  match m with
  | [] => [(k, v)]
  | (k', v') :: rest => if k' = k then (k', v) :: rest else (k', v') :: alUpsert rest k v

/-- JS `Map` insert-or-update: `if (!m.has(k)) m.set(k, init); use m.get(k)`. -/
def alUpdate {β : Type} (m : List (String × β)) (k : String) (f : Option β → β) :
    List (String × β) :=
  match m with
  | [] => [(k, f none)]
  | (k', v) :: rest => if k' = k then (k', f (some v)) :: rest else (k', v) :: alUpdate rest k f

/-- The header revalidation of `HistoryService.refresh`: the loaded cache's
entries are used only when all five header fields match the current run. -/
def cachedEntriesOf (cache : Option CacheFileV4) (sessionsRoot : String)
    (previewMaxMessages : Nat) (dateTimeSettingsKey : String) :
    List (String × CacheEntryV1) :=
  match cache with
  | some c =>
    if c.version = 4 ∧ c.summaryAlgoVersion = summaryCacheAlgoVersion ∧
        c.sessionsRoot = sessionsRoot ∧ c.previewMaxMessages = previewMaxMessages ∧
        c.dateTimeSettingsKey = dateTimeSettingsKey then
      c.entries
    else []
  | none => []

/-- The per-path reuse test of `refresh`: a prior entry under the path's cache
key whose fingerprint (mtime, size) equals the file's current fingerprint. -/
def reuseEntry? (cached : List (String × CacheEntryV1)) (p : String) (st : Stat) :
    Option CacheEntryV1 :=
  match alLookup cached (normalizeCacheKey p) with
  | some e => if e.mtimeMs = st.mtimeMs ∧ e.size = st.size then some e else none
  | none => none

/-- Output of a reconciliation pass, plus the trace of paths the Extractor was
invoked for. -/
structure ReconcileResult where
  nextEntries : List (String × CacheEntryV1)
  summaries : List SessionSummary
  extracted : List String

/-- The per-file loop of `HistoryService.refresh`: skip unstattable files,
reuse entries with identical fingerprints, otherwise invoke the Extractor
(`buildSessionSummary`) and store a fresh entry. -/
def reconcileGo (tz : Int) (sessionsRoot : String) (previewMaxMessages : Nat)
    (fileData : String → FileData) (cached : List (String × CacheEntryV1)) :
    List String → ReconcileResult → ReconcileResult
  | [], r => r
  | p :: rest, r =>
    match (fileData p).stat with
    | none => reconcileGo tz sessionsRoot previewMaxMessages fileData cached rest r
    | some st =>
      let key := normalizeCacheKey p
      match reuseEntry? cached p st with
      | some e =>
        reconcileGo tz sessionsRoot previewMaxMessages fileData cached rest
          ⟨alUpsert r.nextEntries key e, r.summaries ++ [e.summary], r.extracted⟩
      | none =>
        let r1 : ReconcileResult := { r with extracted := r.extracted ++ [p] }
        match buildSessionSummary tz sessionsRoot p previewMaxMessages (fileData p) with
        | none => reconcileGo tz sessionsRoot previewMaxMessages fileData cached rest r1
        | some s =>
          reconcileGo tz sessionsRoot previewMaxMessages fileData cached rest
            { r1 with nextEntries := alUpsert r1.nextEntries key ⟨st.mtimeMs, st.size, s⟩,
                      summaries := r1.summaries ++ [s] }

/-- The reconciliation pass of `refresh`: a forced rebuild skips loading the
cache, and a header mismatch empties it. -/
def reconcile (tz : Int) (sessionsRoot : String) (previewMaxMessages : Nat)
    (dateTimeSettingsKey : String) (fileData : String → FileData)
    (loadedCache : Option CacheFileV4) (force : Bool) (files : List String) :
    ReconcileResult :=
  let cache := if force then none else loadedCache
  let cached := cachedEntriesOf cache sessionsRoot previewMaxMessages dateTimeSettingsKey
  reconcileGo tz sessionsRoot previewMaxMessages fileData cached files ⟨[], [], []⟩

/-- The in-memory index built on each refresh. -/
structure HistoryIndex where
  sessionsRoot : String
  sessions : List SessionSummary
  byYmd : List (String × List SessionSummary)
  byYm : List (String × List (String × List SessionSummary))
  byY : List (String × List (String × List (String × List SessionSummary)))

/-- `emptyIndex` from `historyService`. -/
def emptyIndex (sessionsRoot : String) : HistoryIndex :=
  ⟨sessionsRoot, [], [], [], []⟩

/-- `const [yyyy, mm, dd] = ymd.split("-")` plus the `!yyyy || !mm || !dd`
guard of `buildIndex`. -/
def splitYmdKeys (localDate : String) : Option (String × String × String) :=
  match splitOnChar '-' localDate with
  | y :: m :: d :: _ => if y = "" ∨ m = "" ∨ d = "" then none else some (y, m, d)
  | _ => none

/-- One iteration of the bucketing loop of `buildIndex`. -/
def indexInsert (idx : HistoryIndex) (s : SessionSummary) : HistoryIndex :=
  match splitYmdKeys s.localDate with
  | none => idx
  | some (y, m, d) =>
    { idx with
      byY := alUpdate idx.byY y fun mo =>
        alUpdate (mo.getD []) m fun da =>
          alUpdate (da.getD []) d fun l => (l.getD []) ++ [s]
      byYmd := alUpdate idx.byYmd s.localDate fun l => (l.getD []) ++ [s]
      byYm := alUpdate idx.byYm y fun mm =>
        alUpdate (mm.getD []) m fun l => (l.getD []) ++ [s] }

/-- The index order on summaries: newest first by `localDate`, ties broken by
`timeLabel` descending (string comparison, as the JS comparator does). -/
def summaryBefore (a b : SessionSummary) : Prop :=
  b.localDate < a.localDate ∨ (a.localDate = b.localDate ∧ b.timeLabel ≤ a.timeLabel)

/-- Within-day order: `timeLabel` descending. -/
def timeBefore (a b : SessionSummary) : Prop :=
  b.timeLabel ≤ a.timeLabel

instance : DecidableRel summaryBefore := fun _ _ =>
  inferInstanceAs (Decidable (_ ∨ _))

instance : DecidableRel timeBefore := fun _ _ =>
  inferInstanceAs (Decidable (_ ≤ _))

/-- The final pass of `buildIndex`: each day list is sorted by time label
descending (JS stable sort, modelled by insertion sort). -/
def sortDayLists (idx : HistoryIndex) : HistoryIndex :=
  { idx with
    byY := idx.byY.map fun ye =>
      (ye.1, ye.2.map fun me =>
        (me.1, me.2.map fun de => (de.1, List.insertionSort timeBefore de.2))) }

/-- `buildIndex` from `historyService`. -/
def buildIndex (sessionsRoot : String) (summaries : List SessionSummary) : HistoryIndex :=
  sortDayLists { summaries.foldl indexInsert (emptyIndex sessionsRoot) with sessions := summaries }

/-- The tail of `refresh`: summaries are sorted newest-first, then bucketed. -/
def refreshIndex (sessionsRoot : String) (summaries : List SessionSummary) : HistoryIndex :=
  buildIndex sessionsRoot (List.insertionSort summaryBefore summaries)

/-- The day bucket under (year, month, day) keys, empty when absent. -/
def dayBucket (idx : HistoryIndex) (y m d : String) : List SessionSummary :=
  (alLookup ((alLookup ((alLookup idx.byY y).getD []) m).getD []) d).getD []

/-- File-system operations the cache writer can issue. -/
inductive FsOp where
  | writeFile (path content : String)
  | rename (src dst : String)

/-- `writeJson` from `jsonStorage`: a single direct `writeFile` of the
serialized document to the destination (no temporary file, no rename). -/
def writeJsonOps (path text : String) : List FsOp :=
  [.writeFile path text]

/-- Observable file-system state: path to file content. -/
def FsState : Type := String → Option String

/-- Effect of one completed operation. A completed `writeFile` replaces the
content; `rename` moves atomically. -/
def applyOp (st : FsState) : FsOp → FsState
  | .writeFile p c => fun q => if q = p then some c else st q
  | .rename src dst => fun q => if q = dst then st src else if q = src then none else st q

/-- Effect of an operation that fails partway: a `writeFile` interrupted after
`written` characters leaves the truncated prefix on disk; a `rename` is atomic
and leaves the previous state. -/
def applyPartial (st : FsState) (written : Nat) : FsOp → FsState
  | .writeFile p c => fun q => if q = p then some ⟨c.data.take written⟩ else st q
  | .rename _ _ => st

/-- State observed when execution fails during operation `failAt` after
`written` characters (operations before `failAt` completed normally). -/
def runWithFailure : List FsOp → Nat → Nat → FsState → FsState
  | [], _, _, st => st
  | op :: _, 0, written, st => applyPartial st written op
  | op :: rest, failAt + 1, written, st => runWithFailure rest failAt written (applyOp st op)

/-- The claimed atomicity property: at every partial-failure point, a reader
of `target` observes either the previous content or the complete new content,
never a partially written file. -/
def atomicForReaders (ops : List FsOp) (target : String) (s0 : FsState)
    (newContent : String) : Prop :=
  ∀ failAt written,
    runWithFailure ops failAt written s0 target = s0 target ∨
      runWithFailure ops failAt written s0 target = some newContent

/-- A `message` record with role user or assistant, as the spec's data model
counts them (before the non-empty-text check). -/
def isUserAssistantMessage (l : Line) : Bool :=
  match l with
  | .ok j =>
    j.getStr? "type" = some "response_item" &&
      (jsonOrEmpty (j.getField "payload")).getStr? "type" = some "message" &&
      ((jsonOrEmpty (j.getField "payload")).getStr? "role" = some "user" ||
        (jsonOrEmpty (j.getField "payload")).getStr? "role" = some "assistant")
  | _ => false

/-- The reuse condition of the incremental cache, spelled out as in the spec:
no forced rebuild, a loaded cache whose five header fields match the current
run, and a prior entry under the path's key with an identical fingerprint. -/
def reuseCondition (loaded : Option CacheFileV4) (force : Bool) (sessionsRoot : String)
    (previewMaxMessages : Nat) (dateTimeSettingsKey : String) (p : String) (st : Stat) : Prop :=
  force = false ∧ ∃ c, loaded = some c ∧ c.version = 4 ∧
    c.summaryAlgoVersion = summaryCacheAlgoVersion ∧ c.sessionsRoot = sessionsRoot ∧
    c.previewMaxMessages = previewMaxMessages ∧ c.dateTimeSettingsKey = dateTimeSettingsKey ∧
    ∃ e, alLookup c.entries (normalizeCacheKey p) = some e ∧
      e.mtimeMs = st.mtimeMs ∧ e.size = st.size

/-- Whether the reconciliation loop invokes the Extractor for a path. -/
def shouldExtract (cached : List (String × CacheEntryV1)) (fileData : String → FileData)
    (p : String) : Bool :=
  match (fileData p).stat with
  | none => false
  | some st => (reuseEntry? cached p st).isNone

instance : IsTotal (Session × List SearchHit) sessionHitsBefore where
  total a b := by
    rcases lt_trichotomy a.1.localDate b.1.localDate with h | h | h
    · exact Or.inr (Or.inl h)
    · rcases le_total a.1.timeLabel b.1.timeLabel with ht | ht
      · exact Or.inr (Or.inr ⟨h.symm, ht⟩)
      · exact Or.inl (Or.inr ⟨h, ht⟩)
    · exact Or.inl (Or.inl h)

instance : IsTrans (Session × List SearchHit) sessionHitsBefore where
  trans a b c hab hbc := by
    rcases hab with hab | ⟨hab, tab⟩ <;> rcases hbc with hbc | ⟨hbc, tbc⟩
    · exact Or.inl (lt_trans hbc hab)
    · exact Or.inl (hbc ▸ hab)
    · exact Or.inl (hab ▸ hbc)
    · exact Or.inr ⟨hab.trans hbc, tbc.trans tab⟩

instance : IsTotal SearchHit hitBefore where
  total a b := Nat.le_total a.messageIndex b.messageIndex

instance : IsTrans SearchHit hitBefore where
  trans _ _ _ hab hbc := Nat.le_trans hab hbc

instance : IsTotal SessionSummary summaryBefore where
  total a b := by
    rcases lt_trichotomy a.localDate b.localDate with h | h | h
    · exact Or.inr (Or.inl h)
    · rcases le_total a.timeLabel b.timeLabel with ht | ht
      · exact Or.inr (Or.inr ⟨h.symm, ht⟩)
      · exact Or.inl (Or.inr ⟨h, ht⟩)
    · exact Or.inl (Or.inl h)

instance : IsTrans SessionSummary summaryBefore where
  trans a b c hab hbc := by
    rcases hab with hab | ⟨hab, tab⟩ <;> rcases hbc with hbc | ⟨hbc, tbc⟩
    · exact Or.inl (lt_trans hbc hab)
    · exact Or.inl (hbc ▸ hab)
    · exact Or.inl (hab ▸ hbc)
    · exact Or.inr ⟨hab.trans hbc, tbc.trans tab⟩

instance : IsTotal SessionSummary timeBefore where
  total a b := le_total b.timeLabel a.timeLabel

instance : IsTrans SessionSummary timeBefore where
  trans _ _ _ hab hbc := le_trans hbc hab

/-- A `response_item` message line tagged with the given discriminant key. -/
def mkTaggedMessage (tag role text : String) : Line :=
  .ok (.obj [(tag, .str "response_item"),
             ("payload", .obj [("type", .str "message"), ("role", .str role),
                               ("content", .arr [.obj [("type", .str "input_text"),
                                                       ("text", .str text)]])])])

/-- A `session_meta` first line tagged with the given discriminant key. -/
def mkTaggedMeta (tag ts cwd : String) : Line :=
  .ok (.obj [(tag, .str "session_meta"),
             ("payload", .obj [("timestamp", .str ts), ("cwd", .str cwd)])])

/-- The sessions root of the C1 scenario. -/
def c1Root : String := "/root"

/-- The session file path of the C1 scenario. -/
def c1Path : String := "/root/2024/05/01/rollout-A.jsonl"

/-- The C1 scenario's file with records tagged by a `kind` field, as the
claim's data model prescribes. -/
def c1FileKindTagged : FileData :=
  { stat := some ⟨1714557600000, 300⟩,
    lines := [mkTaggedMeta "kind" "2024-05-01T10:00:00Z" "/proj",
              mkTaggedMessage "kind" "user" "hello world",
              mkTaggedMessage "kind" "assistant" "hi there"] }

/-- The C1 scenario's file with records tagged by the `type` field the code
actually reads. -/
def c1FileTypeTagged : FileData :=
  { stat := some ⟨1714557600000, 300⟩,
    lines := [mkTaggedMeta "type" "2024-05-01T10:00:00Z" "/proj",
              mkTaggedMessage "type" "user" "hello world",
              mkTaggedMessage "type" "assistant" "hi there"] }

/-- The cache artifact path used in the write-model fixtures. -/
def cacheFilePath : String := "globalStorage/cache.v4.json"

/-- Previously stored cache content. -/
def oldCacheText : String := "OLD-CACHE-CONTENT"

/-- Serialized new cache content about to be written. -/
def newCacheText : String := "NEW-CACHE-CONTENT-LONGER"

/-- Initial file-system state: the cache file holds the old content. -/
def cacheState0 : FsState :=
  fun q => if q = cacheFilePath then some oldCacheText else none

/-- A search candidate with one matching user message (newer session). -/
def wSession1 : Session :=
  ⟨"/r/a.jsonl", "/r/a.jsonl", "2024-05-02", "10:00",
    [mkTaggedMessage "type" "user" "hello one"]⟩

/-- A search candidate with one matching user message (older session). -/
def wSession2 : Session :=
  ⟨"/r/b.jsonl", "/r/b.jsonl", "2024-05-01", "09:00",
    [mkTaggedMessage "type" "user" "hello two"]⟩

/-- A candidate whose file holds an empty-text user message followed by a
matching user message. -/
def c4Session : Session :=
  ⟨"/r/c.jsonl", "/r/c.jsonl", "2024-05-01", "10:00",
    [mkTaggedMessage "type" "user" "", mkTaggedMessage "type" "user" "hello world"]⟩

/-- A first line whose `session_meta` timestamp has a year below 1000. -/
def c9MetaLine : Line := mkTaggedMeta "type" "0999-01-01T00:00:00Z" "/proj"

/-- File data for the year-999 session. -/
def c9File : FileData := { stat := some ⟨0, 10⟩, lines := [c9MetaLine] }

/-- Fallback summary value for `Option.getD`. -/
def blankSummary : SessionSummary :=
  ⟨"", "", {}, none, "", "", "", "", []⟩

/-- The summary the Extractor builds for the year-999 session (the path does
not encode a date, so the date comes from the `session_meta` timestamp). -/
def c9Summary : SessionSummary :=
  (buildSessionSummary 0 "/root" "/root/x/rollout-b.jsonl" 5 c9File).getD blankSummary

/-- A summary dated 2024-05-01, 10:00 (for concrete index fixtures). -/
def idxSummaryA : SessionSummary :=
  (buildSessionSummary 0 c1Root c1Path 5 c1FileTypeTagged).getD blankSummary

/-- A cache file whose header matches the C6 witness configuration and whose
single entry fingerprints `c1Path` as (1714557600000, 300). -/
def c6Cache : CacheFileV4 :=
  { version := 4, summaryAlgoVersion := 3, sessionsRoot := c1Root,
    previewMaxMessages := 5, dateTimeSettingsKey := "sys",
    entries := [(c1Path, ⟨1714557600000, 300, idxSummaryA⟩)] }

/-- The observed file system for the C6 witness: only `c1Path` exists. -/
def c6FileData : String → FileData :=
  fun p => if p = c1Path then c1FileTypeTagged else { stat := none, lines := [] }

/-- Cancellation-insensitive view of a search state: hit total and per-key
hit lists (drops the check counter and the stored session values). -/
def SearchAcc.proj (acc : SearchAcc) : Nat × List (String × List SearchHit) :=
  (acc.totalHits, acc.bySession.map fun e => (e.1, e.2.2))

/-- View of a search outcome by hit total and per-key hit lists. -/
def searchProj (out : SearchOutcome) : Nat × List (String × List SearchHit) :=
  (out.totalHits, out.sessions.map fun e => (e.1.cacheKey, e.2))

/-- `pushHit` on the projected (session-free) hit map. -/
def pushHitP (m : List (String × List SearchHit)) (key : String) (h : SearchHit) :
    List (String × List SearchHit) :=
  if m.any (fun e => e.1 == key) then
    m.map (fun e => if e.1 = key then (e.1, e.2 ++ [h]) else e)
  else m ++ [(key, [h])]

/-!
Theorems. Claim-level results are named `cN...`; the remaining theorems are
shared helper lemmas.
-/

/-- C1 counterexample: on the claim's corpus — `2024/05/01/rollout-A.jsonl`
whose records are tagged by a `kind` field (first line
`session_meta` with timestamp `2024-05-01T10:00:00Z` and cwd `/proj`, then a
user message "hello world" and an assistant message "hi there") — the code
recognizes no record (it discriminates on a `type` field, not `kind`), so the
summary has no preview messages and its snippet falls back to the file's base
name instead of "hello world". Only `localDate` matches the claim, because it
is inferred from the directory structure. -/
theorem c1_counterexample :
    (buildSessionSummary 0 c1Root c1Path 5 c1FileKindTagged).map
        (fun s => (s.localDate, s.snippet, s.previewMessages.length)) =
      some ("2024-05-01", "rollout-A.jsonl", 0) ∧
    (buildSessionSummary 0 c1Root c1Path 5 c1FileKindTagged).map
        (fun s => s.snippet) ≠ some "hello world" := by
  decide

/-- C1 amended: for the same corpus with records tagged by the `type` field
(as the code reads and as the Codex CLI writes), `buildSessionSummary` yields
`localDate = "2024-05-01"`, snippet `"hello world"`, and exactly one preview
message per role. -/
theorem c1_amended :
    (buildSessionSummary 0 c1Root c1Path 5 c1FileTypeTagged).map
        (fun s => (s.localDate, s.snippet, s.previewMessages)) =
      some ("2024-05-01", "hello world",
        [⟨"user", "hello world"⟩, ⟨"assistant", "hi there"⟩]) := by
  decide

/-- C2 counterexample: `writeJson` issues one direct `writeFile` to the cache
path, so a write failing after one character leaves the cache file holding a
one-character prefix of the new content — neither the old nor the new
document. A reader can therefore observe a partially written cache file. -/
theorem c2_counterexample :
    ¬ atomicForReaders (writeJsonOps cacheFilePath newCacheText) cacheFilePath
        cacheState0 newCacheText := by
  intro h
  rcases h 0 1 with h1 | h1
  · exact absurd h1 (by decide)
  · exact absurd h1 (by decide)

/-- C2 amended: saving the cache is a single direct write (no temporary file,
no rename), so a write that fails after `k` characters leaves the cache file
holding the first `k` characters of the new content, while every other path
is untouched. -/
theorem c2_amended (p t : String) (s0 : FsState) (k : Nat) :
    writeJsonOps p t = [FsOp.writeFile p t] ∧
    runWithFailure (writeJsonOps p t) 0 k s0 p = some ⟨t.data.take k⟩ ∧
    (∀ q, q ≠ p → runWithFailure (writeJsonOps p t) 0 k s0 q = s0 q) := by
  refine ⟨rfl, ?_, ?_⟩
  · simp [writeJsonOps, runWithFailure, applyPartial]
  · intro q hq
    simp [writeJsonOps, runWithFailure, applyPartial, hq]

/-- C2 amended, witnessed at the concrete fixtures. -/
theorem c2_amended_witness :
    runWithFailure (writeJsonOps cacheFilePath newCacheText) 0 1 cacheState0 "elsewhere" =
      cacheState0 "elsewhere" :=
  (c2_amended cacheFilePath newCacheText cacheState0 1).2.2 "elsewhere" (by decide)

/-- Digit rendering of a one-digit number. -/
theorem natDigitsAux_single (fuel m : Nat) (h : m < 10) (hf : 1 ≤ fuel) :
    natDigitsAux fuel m = [digitChar m] := by
  cases fuel with
  | zero => omega
  | succ f => simp [natDigitsAux, h]

/-- A two-digit number renders as two characters. -/
theorem natToString_length_two (n : Nat) (h10 : 10 ≤ n) (h : n < 100) :
    (natToString n).length = 2 := by
  have hd : n / 10 < 10 := by omega
  have hn : ¬ n < 10 := by omega
  have h1 : 1 ≤ n := by omega
  simp [natToString, natDigitsAux, hn, String.length,
    natDigitsAux_single n (n / 10) hd h1]

/-- `pad2` always yields a two-character string for values below 100. -/
theorem pad2_length_two (n : Nat) (h : n < 100) : (pad2 n).length = 2 := by
  by_cases h10 : n < 10
  · simp [pad2, h10, natToString, natDigitsAux_single (n + 1) n h10 (by omega),
      String.length]
  · simp only [pad2, if_neg h10]
    exact natToString_length_two n (by omega) h

/-- The local milliseconds-of-day are below one day. -/
theorem localMsOfDay_lt (tz ms : Int) : localMsOfDay tz ms < 86400000 := by
  unfold localMsOfDay localDays
  set a := ms + tz * 60000 with ha
  have hb : (0 : Int) < 86400000 := by omega
  have hdm : a - a.fdiv 86400000 * 86400000 = a.fmod 86400000 := by
    rw [Int.fmod_def]
    ring
  rw [hdm]
  have hlt : a.fmod 86400000 < 86400000 := Int.fmod_lt_of_pos a hb
  omega

/-- C7: the Extractor's display date follows the priority order: the
`YYYY/MM/DD` directory structure when the path encodes it, else the parsed
`session_meta` start timestamp, else the file's modification time. -/
theorem c7_date_priority (tz : Int) (root p : String) (pm : Nat) (fd : FileData) (st : Stat)
    (hstat : fd.stat = some st) :
    ∃ s, buildSessionSummary tz root p pm fd = some s ∧
      (∀ y, inferYmdFromPath root p = some y → s.localDate = ymdToString y) ∧
      (inferYmdFromPath root p = none →
        (∀ ms, sessionStartMs tz ((tryReadSessionMeta fd.lines).getD {}) = some ms →
          s.localDate = ymdToString (toYmdLocal tz ms)) ∧
        (sessionStartMs tz ((tryReadSessionMeta fd.lines).getD {}) = none →
          s.localDate = ymdToString (toYmdLocal tz st.mtimeMs))) := by
  simp only [buildSessionSummary, hstat]
  refine ⟨_, rfl, ?_, ?_⟩
  · intro y hy
    simp only [hy]
  · intro hn
    refine ⟨?_, ?_⟩
    · intro ms hms
      simp only [hn, hms]
    · intro hms
      simp only [hn, hms]

/-- C7 witnessed on the C1 scenario file (date inferred from the path). -/
theorem c7_witness :
    ∃ s, buildSessionSummary 0 c1Root c1Path 5 c1FileTypeTagged = some s ∧
      s.localDate = ymdToString ⟨2024, 5, 1⟩ := by
  obtain ⟨s, heq, h1, _⟩ :=
    c7_date_priority 0 c1Root c1Path 5 c1FileTypeTagged ⟨1714557600000, 300⟩ rfl
  exact ⟨s, heq, h1 ⟨2024, 5, 1⟩ (by decide)⟩

/-- C8: the Extractor returns `none` exactly when the file cannot be stat'd
(regardless of the file's lines); when the file can be stat'd but the first
line is missing, unparseable or not a `session_meta` record, it still returns a
summary with empty metadata, placeholder time label, and a date that falls
back to the modification time when the path encodes no date. -/
theorem c8_null_iff_stat (tz : Int) (root p : String) (pm : Nat) (fd : FileData) :
    (buildSessionSummary tz root p pm fd = none ↔ fd.stat = none) ∧
    (∀ st, fd.stat = some st → tryReadSessionMeta fd.lines = none →
      ∃ s, buildSessionSummary tz root p pm fd = some s ∧ s.meta = {} ∧
        s.timeLabel = "--:--" ∧
        (inferYmdFromPath root p = none →
          s.localDate = ymdToString (toYmdLocal tz st.mtimeMs))) := by
  constructor
  · cases h : fd.stat <;> simp [buildSessionSummary, h]
  · intro st hstat hmeta
    have hstart : sessionStartMs tz (({} : SessionMetaInfo)) = none := rfl
    simp only [buildSessionSummary, hstat, hmeta, Option.getD_none, hstart]
    refine ⟨_, rfl, rfl, rfl, ?_⟩
    intro hn
    simp only [hn]

/-- C8 witnessed on a stat-able file whose only line is unparseable JSON. -/
theorem c8_witness :
    ∃ s, buildSessionSummary 0 c1Root "/root/x/a.jsonl" 5
        { stat := some ⟨86400000, 7⟩, lines := [Line.bad] } = some s ∧ s.meta = {} ∧
      s.timeLabel = "--:--" ∧ s.localDate = ymdToString (toYmdLocal 0 86400000) := by
  obtain ⟨s, heq, hm, ht, hd⟩ :=
    (c8_null_iff_stat 0 c1Root "/root/x/a.jsonl" 5
      { stat := some ⟨86400000, 7⟩, lines := [Line.bad] }).2 ⟨86400000, 7⟩ rfl rfl
  exact ⟨s, heq, hm, ht, hd (by decide)⟩

/-- C10: the summary's time label is the placeholder `"--:--"` when the first
line yields no parseable start timestamp, and otherwise the zero-padded
`HH:MM` rendering of the local start time (both components two characters,
hour below 24, minute below 60). -/
theorem c10_time_label (tz : Int) (root p : String) (pm : Nat) (fd : FileData) (st : Stat)
    (hstat : fd.stat = some st) :
    ∃ s, buildSessionSummary tz root p pm fd = some s ∧
      (sessionStartMs tz ((tryReadSessionMeta fd.lines).getD {}) = none →
        s.timeLabel = "--:--") ∧
      (∀ ms, sessionStartMs tz ((tryReadSessionMeta fd.lines).getD {}) = some ms →
        s.timeLabel = pad2 (localMsOfDay tz ms / 3600000) ++ ":" ++
          pad2 (localMsOfDay tz ms % 3600000 / 60000) ∧
        localMsOfDay tz ms / 3600000 < 24 ∧
        localMsOfDay tz ms % 3600000 / 60000 < 60 ∧
        (pad2 (localMsOfDay tz ms / 3600000)).length = 2 ∧
        (pad2 (localMsOfDay tz ms % 3600000 / 60000)).length = 2) := by
  simp only [buildSessionSummary, hstat]
  refine ⟨_, rfl, ?_, ?_⟩
  · intro hn
    simp only [hn]
  · intro ms hms
    have hday := localMsOfDay_lt tz ms
    have hh : localMsOfDay tz ms / 3600000 < 24 := by omega
    have hm : localMsOfDay tz ms % 3600000 / 60000 < 60 := by
      have : localMsOfDay tz ms % 3600000 < 3600000 := Nat.mod_lt _ (by omega)
      omega
    refine ⟨?_, hh, hm, pad2_length_two _ (by omega), pad2_length_two _ (by omega)⟩
    simp only [hms, formatTimeHmLocal]

/-- C10 witnessed on the C1 scenario file (start 10:00 UTC). -/
theorem c10_witness :
    ∃ s, buildSessionSummary 0 c1Root c1Path 5 c1FileTypeTagged = some s ∧
      s.timeLabel = pad2 (localMsOfDay 0 1714557600000 / 3600000) ++ ":" ++
        pad2 (localMsOfDay 0 1714557600000 % 3600000 / 60000) := by
  obtain ⟨s, heq, _, h2⟩ :=
    c10_time_label 0 c1Root c1Path 5 c1FileTypeTagged ⟨1714557600000, 300⟩ rfl
  exact ⟨s, heq, (h2 1714557600000 (by decide)).1⟩

/-- At the hit cap, scanning a file consumes at most one cancellation check
and collects nothing. -/
theorem scanLines_capped (cs : Bool) (q n : String) (k : Nat) (s : Session)
    (lines : List Line) (mi : Nat) (acc : SearchAcc) (h : k ≤ acc.totalHits) :
    ∃ ch', scanLines cs q n k none s lines mi acc =
      some (mi, ⟨ch', acc.totalHits, acc.bySession⟩) := by
  cases lines with
  | nil => exact ⟨acc.checks, rfl⟩
  | cons l rest =>
    refine ⟨acc.checks + 1, ?_⟩
    simp [scanLines, isCancelled, h]

/-- At the hit cap, the remaining files leave the hit total and hit map
unchanged. -/
theorem searchGo_capped (cs : Bool) (q n : String) (k : Nat)
    (sessions : List Session) :
    ∀ acc : SearchAcc, k ≤ acc.totalHits →
      ∃ ch', searchGo cs q n k none sessions acc =
        some ⟨ch', acc.totalHits, acc.bySession⟩ := by
  induction sessions with
  | nil => exact fun acc _ => ⟨acc.checks, rfl⟩
  | cons s rest ih =>
    intro acc h
    obtain ⟨ch1, hscan⟩ :=
      scanLines_capped cs q n k s s.lines 0 ⟨acc.checks + 1, acc.totalHits, acc.bySession⟩ h
    obtain ⟨ch2, hgo⟩ := ih ⟨ch1, acc.totalHits, acc.bySession⟩ h
    refine ⟨ch2, ?_⟩
    simp [searchGo, isCancelled, hscan, hgo]

/-- A non-matching head line does not change the match count. -/
theorem countLineMatches_cons_nomatch (cs : Bool) (n : String) (l : Line)
    (rest : List Line) (h : lineIsMatch cs n l = false) :
    countLineMatches cs n (l :: rest) = countLineMatches cs n rest := by
  simp [countLineMatches, h]

/-- A matching head line adds one to the match count. -/
theorem countLineMatches_cons_match (cs : Bool) (n : String) (l : Line)
    (rest : List Line) (h : lineIsMatch cs n l = true) :
    countLineMatches cs n (l :: rest) = countLineMatches cs n rest + 1 := by
  simp [countLineMatches, h]

/-- Without cancellation, scanning a file always terminates with hit total
`min maxResults (previous + matches in the file)`. -/
theorem scanLines_total (cs : Bool) (q n : String) (k : Nat) (s : Session) :
    ∀ (lines : List Line) (mi : Nat) (acc : SearchAcc), acc.totalHits ≤ k →
      ∃ mi' acc', scanLines cs q n k none s lines mi acc = some (mi', acc') ∧
        acc'.totalHits = min k (acc.totalHits + countLineMatches cs n lines) := by
  intro lines
  induction lines with
  | nil =>
    intro mi acc h
    exact ⟨mi, acc, rfl, by simp [countLineMatches, Nat.min_eq_right h]⟩
  | cons l rest ih =>
    intro mi acc h
    by_cases hcap : k ≤ acc.totalHits
    · refine ⟨mi, ⟨acc.checks + 1, acc.totalHits, acc.bySession⟩, ?_, ?_⟩
      · simp [scanLines, isCancelled, hcap]
      · have hk : acc.totalHits = k := le_antisymm h hcap
        simp [hk]
    · have hlt : acc.totalHits < k := lt_of_not_ge hcap
      cases hcl : classifyLine cs n l with
      | skip =>
        obtain ⟨mi', acc', heq, htot⟩ :=
          ih mi ⟨acc.checks + 1, acc.totalHits, acc.bySession⟩ (le_of_lt hlt)
        refine ⟨mi', acc', ?_, ?_⟩
        · simp [scanLines, isCancelled, hcap, hcl, heq]
        · rw [htot, countLineMatches_cons_nomatch cs n l rest (by simp [lineIsMatch, hcl])]
      | message role text hitAt =>
        cases hitAt with
        | none =>
          obtain ⟨mi', acc', heq, htot⟩ :=
            ih (mi + 1) ⟨acc.checks + 1, acc.totalHits, acc.bySession⟩ (le_of_lt hlt)
          refine ⟨mi', acc', ?_, ?_⟩
          · simp [scanLines, isCancelled, hcap, hcl, heq]
          · rw [htot, countLineMatches_cons_nomatch cs n l rest (by simp [lineIsMatch, hcl])]
        | some pos =>
          have hcnt := countLineMatches_cons_match cs n l rest (by simp [lineIsMatch, hcl])
          by_cases hcap2 : k ≤ acc.totalHits + 1
          · refine ⟨mi + 1,
              ⟨acc.checks + 1, acc.totalHits + 1,
                pushHit acc.bySession s
                  ⟨mi + 1, role, singleLineSnippet (buildAround text pos q.length) 160⟩⟩,
              ?_, ?_⟩
            · simp [scanLines, isCancelled, hcap, hcl, hcap2]
            · rw [hcnt]
              dsimp only
              omega
          · obtain ⟨mi', acc', heq, htot⟩ :=
              ih (mi + 1)
                ⟨acc.checks + 1, acc.totalHits + 1,
                  pushHit acc.bySession s
                    ⟨mi + 1, role, singleLineSnippet (buildAround text pos q.length) 160⟩⟩
                (by dsimp only; omega)
            refine ⟨mi', acc', ?_, ?_⟩
            · simp [scanLines, isCancelled, hcap, hcl, hcap2, heq]
            · rw [htot, hcnt]
              dsimp only at htot ⊢
              omega

/-- Without cancellation, the whole search terminates with hit total
`min maxResults (total matches across candidates)`. -/
theorem searchGo_total (cs : Bool) (q n : String) (k : Nat) :
    ∀ (sessions : List Session) (acc : SearchAcc), acc.totalHits ≤ k →
      ∃ acc', searchGo cs q n k none sessions acc = some acc' ∧
        acc'.totalHits =
          min k (acc.totalHits +
            (sessions.map fun s => countLineMatches cs n s.lines).sum) := by
  intro sessions
  induction sessions with
  | nil =>
    intro acc h
    exact ⟨acc, rfl, by simp [Nat.min_eq_right h]⟩
  | cons s rest ih =>
    intro acc h
    obtain ⟨mi', acc2, hscan, htot2⟩ :=
      scanLines_total cs q n k s s.lines 0 ⟨acc.checks + 1, acc.totalHits, acc.bySession⟩ h
    obtain ⟨acc3, hgo, htot3⟩ := ih acc2 (by omega)
    refine ⟨acc3, ?_, ?_⟩
    · simp [searchGo, isCancelled, hscan, hgo]
    · rw [htot3, htot2]
      simp only [List.map_cons, List.sum_cons]
      omega

/-- The outer search loop distributes over list append. -/
theorem searchGo_append (cs : Bool) (q n : String) (k : Nat) (cancelAt : Option Nat) :
    ∀ (xs ys : List Session) (acc : SearchAcc),
      searchGo cs q n k cancelAt (xs ++ ys) acc =
        (searchGo cs q n k cancelAt xs acc).bind (searchGo cs q n k cancelAt ys) := by
  intro xs
  induction xs with
  | nil => intro ys acc; rfl
  | cons s rest ih =>
    intro ys acc
    by_cases hc : isCancelled cancelAt acc.checks = true
    · simp [searchGo, hc]
    · simp only [List.cons_append, searchGo, Bool.not_eq_true] at hc ⊢
      rw [hc]
      simp only [Bool.false_eq_true, if_false]
      cases hscan : scanLines cs q n k cancelAt s s.lines 0
          ⟨acc.checks + 1, acc.totalHits, acc.bySession⟩ with
      | none => simp
      | some r => simp [ih]

/-- `pushHit` commutes with dropping the stored session values. -/
theorem pushHit_map_proj (m : List (String × Session × List SearchHit)) (s : Session)
    (h : SearchHit) :
    (pushHit m s h).map (fun e => (e.1, e.2.2)) =
      pushHitP (m.map fun e => (e.1, e.2.2)) s.cacheKey h := by
  unfold pushHit pushHitP
  have hany : (m.map (fun (e : String × Session × List SearchHit) => (e.1, e.2.2))).any
      (fun e => e.1 == s.cacheKey) = m.any (fun e => e.1 == s.cacheKey) := by
    induction m with
    | nil => rfl
    | cons a t iht => simp [iht]
  rw [hany]
  split
  · rw [List.map_map, List.map_map]
    refine List.map_congr_left ?_
    intro e _
    by_cases hk : e.1 = s.cacheKey <;> simp [hk]
  · simp

/-- Scanning one file keeps the hit map confined to that file's cache key,
storing the scanned session itself. -/
theorem scanLines_single_key (cs : Bool) (q n : String) (k : Nat)
    (cancelAt : Option Nat) (s : Session) :
    ∀ (lines : List Line) (mi : Nat) (acc : SearchAcc) (r : Nat × SearchAcc),
      scanLines cs q n k cancelAt s lines mi acc = some r →
      (acc.bySession = [] ∨ ∃ hs, acc.bySession = [(s.cacheKey, s, hs)]) →
      (r.2.bySession = [] ∨ ∃ hs, r.2.bySession = [(s.cacheKey, s, hs)]) := by
  intro lines
  induction lines with
  | nil =>
    intro mi acc r heq hshape
    simp only [scanLines] at heq
    cases heq
    exact hshape
  | cons l rest ih =>
    intro mi acc r heq hshape
    simp only [scanLines] at heq
    by_cases hc : isCancelled cancelAt acc.checks = true
    · simp [hc] at heq
    · rw [Bool.not_eq_true] at hc
      rw [hc] at heq
      simp only [Bool.false_eq_true, if_false] at heq
      by_cases hcap : acc.totalHits ≥ k
      · rw [if_pos hcap] at heq
        cases heq
        exact hshape
      · rw [if_neg hcap] at heq
        have hpush : ∀ hit : SearchHit,
            (pushHit acc.bySession s hit) = [] ∨
              ∃ hs, pushHit acc.bySession s hit = [(s.cacheKey, s, hs)] := by
          intro hit
          rcases hshape with h0 | ⟨hs, h1⟩
          · right
            exact ⟨[hit], by simp [pushHit, h0]⟩
          · right
            exact ⟨hs ++ [hit], by simp [pushHit, h1]⟩
        cases hcl : classifyLine cs n l with
        | skip =>
          rw [hcl] at heq
          exact ih _ _ _ heq hshape
        | message role text hitAt =>
          rw [hcl] at heq
          cases hitAt with
          | none => exact ih _ _ _ heq hshape
          | some pos =>
            simp only at heq
            by_cases hcap2 : acc.totalHits + 1 ≥ k
            · rw [if_pos hcap2] at heq
              cases heq
              exact hpush _
            · rw [if_neg hcap2] at heq
              exact ih _ _ _ heq (hpush _)

/-- Once the prefix of a file already holds `maxResults` matches, the lines
after it contribute nothing: the scan of the full file and the scan of the
prefix produce the same message counter, hit total and (projected) hit map. -/
theorem scanLines_proj_prefix (cs : Bool) (q n : String) (k : Nat)
    (s s' : Session) (hkey : s.cacheKey = s'.cacheKey) :
    ∀ (la lb : List Line) (mi : Nat) (acc acc' : SearchAcc),
      acc.proj = acc'.proj → acc.totalHits ≤ k →
      k ≤ acc.totalHits + countLineMatches cs n la →
      ∃ r r', scanLines cs q n k none s (la ++ lb) mi acc = some r ∧
        scanLines cs q n k none s' la mi acc' = some r' ∧
        r.1 = r'.1 ∧ r.2.proj = r'.2.proj := by
  intro la
  induction la with
  | nil =>
    intro lb mi acc acc' hproj hle hge
    have hcap : k ≤ acc.totalHits := by
      simpa [countLineMatches] using hge
    obtain ⟨ch, hscan⟩ := scanLines_capped cs q n k s lb mi acc hcap
    refine ⟨(mi, ⟨ch, acc.totalHits, acc.bySession⟩), (mi, acc'), hscan, rfl, rfl, ?_⟩
    simpa [SearchAcc.proj] using hproj
  | cons l rest ih =>
    intro lb mi acc acc' hproj hle hge
    have htot : acc.totalHits = acc'.totalHits := congrArg Prod.fst hproj
    have hby : acc.bySession.map (fun e => (e.1, e.2.2)) =
        acc'.bySession.map (fun e => (e.1, e.2.2)) := congrArg Prod.snd hproj
    by_cases hcap : k ≤ acc.totalHits
    · refine ⟨(mi, ⟨acc.checks + 1, acc.totalHits, acc.bySession⟩),
        (mi, ⟨acc'.checks + 1, acc'.totalHits, acc'.bySession⟩), ?_, ?_, rfl, ?_⟩
      · simp [scanLines, isCancelled, hcap]
      · simp [scanLines, isCancelled, htot ▸ hcap]
      · simpa [SearchAcc.proj] using hproj
    · have hlt : acc.totalHits < k := lt_of_not_ge hcap
      have hcap' : ¬ acc'.totalHits ≥ k := by omega
      cases hcl : classifyLine cs n l with
      | skip =>
        have hge' : k ≤ acc.totalHits + countLineMatches cs n rest := by
          rwa [countLineMatches_cons_nomatch cs n l rest (by simp [lineIsMatch, hcl])] at hge
        obtain ⟨r, r', h1, h2, h3, h4⟩ :=
          ih lb mi ⟨acc.checks + 1, acc.totalHits, acc.bySession⟩
            ⟨acc'.checks + 1, acc'.totalHits, acc'.bySession⟩
            (by simpa [SearchAcc.proj] using hproj) (le_of_lt hlt) hge'
        refine ⟨r, r', ?_, ?_, h3, h4⟩
        · simpa [scanLines, isCancelled, hcap, hcl] using h1
        · simpa [scanLines, isCancelled, hcap', hcl] using h2
      | message role text hitAt =>
        cases hitAt with
        | none =>
          have hge' : k ≤ acc.totalHits + countLineMatches cs n rest := by
            rwa [countLineMatches_cons_nomatch cs n l rest (by simp [lineIsMatch, hcl])] at hge
          obtain ⟨r, r', h1, h2, h3, h4⟩ :=
            ih lb (mi + 1) ⟨acc.checks + 1, acc.totalHits, acc.bySession⟩
              ⟨acc'.checks + 1, acc'.totalHits, acc'.bySession⟩
              (by simpa [SearchAcc.proj] using hproj) (le_of_lt hlt) hge'
          refine ⟨r, r', ?_, ?_, h3, h4⟩
          · simpa [scanLines, isCancelled, hcap, hcl] using h1
          · simpa [scanLines, isCancelled, hcap', hcl] using h2
        | some pos =>
          have hpush : (pushHit acc.bySession s
              ⟨mi + 1, role, singleLineSnippet (buildAround text pos q.length) 160⟩).map
                (fun e => (e.1, e.2.2)) =
              (pushHit acc'.bySession s'
              ⟨mi + 1, role, singleLineSnippet (buildAround text pos q.length) 160⟩).map
                (fun e => (e.1, e.2.2)) := by
            rw [pushHit_map_proj, pushHit_map_proj, hby, hkey]
          by_cases hcap2 : k ≤ acc.totalHits + 1
          · refine ⟨(mi + 1, ⟨acc.checks + 1, acc.totalHits + 1, pushHit acc.bySession s
                ⟨mi + 1, role, singleLineSnippet (buildAround text pos q.length) 160⟩⟩),
              (mi + 1, ⟨acc'.checks + 1, acc'.totalHits + 1, pushHit acc'.bySession s'
                ⟨mi + 1, role, singleLineSnippet (buildAround text pos q.length) 160⟩⟩),
              ?_, ?_, rfl, ?_⟩
            · simp [scanLines, isCancelled, hcap, hcl, hcap2]
            · simp [scanLines, isCancelled, hcap', hcl, htot ▸ hcap2]
            · simpa [SearchAcc.proj, htot] using hpush
          · have hge' : k ≤ acc.totalHits + 1 + countLineMatches cs n rest := by
              rw [countLineMatches_cons_match cs n l rest (by simp [lineIsMatch, hcl])] at hge
              omega
            obtain ⟨r, r', h1, h2, h3, h4⟩ :=
              ih lb (mi + 1)
                ⟨acc.checks + 1, acc.totalHits + 1, pushHit acc.bySession s
                  ⟨mi + 1, role, singleLineSnippet (buildAround text pos q.length) 160⟩⟩
                ⟨acc'.checks + 1, acc'.totalHits + 1, pushHit acc'.bySession s'
                  ⟨mi + 1, role, singleLineSnippet (buildAround text pos q.length) 160⟩⟩
                (by simpa [SearchAcc.proj, htot] using hpush) (by dsimp only; omega)
                (by dsimp only; omega)
            refine ⟨r, r', ?_, ?_, h3, h4⟩
            · simpa [scanLines, isCancelled, hcap, hcl, hcap2] using h1
            · simpa [scanLines, isCancelled, hcap', hcl, htot ▸ hcap2] using h2

/-- C3: with `maxResults = k` and more than `k` matching messages across the
candidates, search completes with `totalHits` exactly `k`, never more; once a
prefix of the candidate list already holds `k` matches the remaining files
contribute nothing (the whole search stops collecting), and within a single
file the lines after a cap-reaching prefix contribute nothing (the file scan
stops). -/
theorem c3_search_cap (sessions : List Session) (q : String) (cs : Bool) (k : Nat)
    (hmore : k < totalMatches cs q sessions) :
    (∃ out, searchSessions sessions q k cs none = some out ∧ out.totalHits = k) ∧
    (∀ pre post, sessions = pre ++ post → k ≤ totalMatches cs q pre →
      searchSessions sessions q k cs none = searchSessions pre q k cs none) ∧
    (∀ (s : Session) (la lb : List Line), s.lines = la ++ lb →
      k ≤ countLineMatches cs (searchNeedle cs q) la →
      (searchSessions [s] q k cs none).map searchProj =
        (searchSessions [{ s with lines := la }] q k cs none).map searchProj) := by
  refine ⟨?_, ?_, ?_⟩
  · obtain ⟨acc', hgo, htot⟩ :=
      searchGo_total cs q (searchNeedle cs q) k sessions ⟨0, 0, []⟩ (Nat.zero_le k)
    have heq : searchSessions sessions q k cs none = some ⟨acc'.totalHits,
        (List.insertionSort sessionHitsBefore (acc'.bySession.map fun e => (e.2.1, e.2.2))).map
          (fun e => (e.1, List.insertionSort hitBefore e.2))⟩ := by
      simp only [searchSessions, hgo]
    refine ⟨_, heq, ?_⟩
    show acc'.totalHits = k
    rw [htot]
    unfold totalMatches at hmore
    omega
  · intro pre post hsplit hpre
    subst hsplit
    obtain ⟨accP, hgoP, htotP⟩ :=
      searchGo_total cs q (searchNeedle cs q) k pre ⟨0, 0, []⟩ (Nat.zero_le k)
    have hk : accP.totalHits = k := by
      rw [htotP]
      unfold totalMatches at hpre
      omega
    obtain ⟨ch, hgoPost⟩ :=
      searchGo_capped cs q (searchNeedle cs q) k post accP (le_of_eq hk.symm)
    have hall : searchGo cs q (searchNeedle cs q) k none (pre ++ post) ⟨0, 0, []⟩ =
        some ⟨ch, accP.totalHits, accP.bySession⟩ := by
      rw [searchGo_append, hgoP]
      exact hgoPost
    simp only [searchSessions, hall, hgoP]
  · intro s la lb hlines hla
    obtain ⟨r, r', h1, h2, h3, h4⟩ :=
      scanLines_proj_prefix cs q (searchNeedle cs q) k s { s with lines := la } rfl la lb 0
        ⟨1, 0, []⟩ ⟨1, 0, []⟩ rfl (Nat.zero_le k) (by simpa using hla)
    have hk1 := scanLines_single_key cs q (searchNeedle cs q) k none s (la ++ lb) 0
      ⟨1, 0, []⟩ r h1 (Or.inl rfl)
    have hk2 := scanLines_single_key cs q (searchNeedle cs q) k none { s with lines := la }
      la 0 ⟨1, 0, []⟩ r' h2 (Or.inl rfl)
    have hgo1 : searchGo cs q (searchNeedle cs q) k none [s] ⟨0, 0, []⟩ = some r.2 := by
      have h1' : scanLines cs q (searchNeedle cs q) k none s s.lines 0 ⟨1, 0, []⟩ = some r := by
        rw [hlines]; exact h1
      simp [searchGo, isCancelled, h1']
    have hgo2 : searchGo cs q (searchNeedle cs q) k none [{ s with lines := la }]
        ⟨0, 0, []⟩ = some r'.2 := by
      simp [searchGo, isCancelled, h2]
    have htots : r.2.totalHits = r'.2.totalHits := by
      have := congrArg Prod.fst h4
      simpa [SearchAcc.proj] using this
    have hbys := congrArg Prod.snd h4
    simp only [SearchAcc.proj] at hbys
    rcases hk1 with hb1 | ⟨hs1, hb1⟩ <;> rcases hk2 with hb2 | ⟨hs2, hb2⟩
    · simp [searchSessions, hgo1, hgo2, hb1, hb2, searchProj, htots]
    · rw [hb1, hb2] at hbys
      simp at hbys
    · rw [hb1, hb2] at hbys
      simp at hbys
    · rw [hb1, hb2] at hbys
      simp at hbys
      simp [searchSessions, hgo1, hgo2, hb1, hb2, searchProj, htots,
        List.insertionSort, List.orderedInsert, hbys]

/-- C3 witnessed: two candidates with one matching message each and
`maxResults = 1` yield exactly one hit. -/
theorem c3_witness :
    ∃ out, searchSessions [wSession1, wSession2] "hello" 1 false none = some out ∧
      out.totalHits = 1 :=
  (c3_search_cap [wSession1, wSession2] "hello" false 1 (by decide)).1

/-- Reference hits carry display indices above the starting counter and are
sorted ascending. -/
theorem hitsSpecGo_bounds (cs : Bool) (q n : String) :
    ∀ (lines : List Line) (mi : Nat),
      (∀ h ∈ hitsSpecGo cs q n lines mi, mi < h.messageIndex) ∧
        List.Sorted hitBefore (hitsSpecGo cs q n lines mi) := by
  intro lines
  induction lines with
  | nil => intro mi; exact ⟨by simp [hitsSpecGo], by simp [hitsSpecGo]⟩
  | cons l rest ih =>
    intro mi
    cases hcl : classifyLine cs n l with
    | skip => simpa [hitsSpecGo, hcl] using ih mi
    | message role text hitAt =>
      cases hitAt with
      | none =>
        refine ⟨?_, by simpa [hitsSpecGo, hcl] using (ih (mi + 1)).2⟩
        intro h hmem
        have := (ih (mi + 1)).1 h (by simpa [hitsSpecGo, hcl] using hmem)
        omega
      | some pos =>
        constructor
        · intro h hmem
          simp only [hitsSpecGo, hcl] at hmem
          rcases List.mem_cons.mp hmem with rfl | hmem
          · simp
          · have := (ih (mi + 1)).1 h hmem
            omega
        · simp only [hitsSpecGo, hcl, List.sorted_cons]
          refine ⟨?_, (ih (mi + 1)).2⟩
          intro b hb
          have := (ih (mi + 1)).1 b hb
          simp only [hitBefore]
          omega

/-- Folding hits into a single-entry map appends them to that entry. -/
theorem foldl_pushHit_entry (s : Session) :
    ∀ (hits hs : List SearchHit),
      hits.foldl (fun m h => pushHit m s h) [(s.cacheKey, s, hs)] =
        [(s.cacheKey, s, hs ++ hits)] := by
  intro hits
  induction hits with
  | nil => intro hs; simp
  | cons h t iht =>
    intro hs
    have hstep : pushHit [(s.cacheKey, s, hs)] s h = [(s.cacheKey, s, hs ++ [h])] := by
      simp [pushHit]
    simp only [List.foldl_cons, hstep, iht, List.append_assoc, List.singleton_append]

/-- Folding hits into the empty map produces one entry under the session's
cache key (or none when there are no hits). -/
theorem foldl_pushHit_nil (s : Session) (hits : List SearchHit) :
    hits.foldl (fun m h => pushHit m s h) [] =
      if hits = [] then [] else [(s.cacheKey, s, hits)] := by
  cases hits with
  | nil => rfl
  | cons h t =>
    have hstep : pushHit [] s h = [(s.cacheKey, s, [h])] := by simp [pushHit]
    simp [hstep, foldl_pushHit_entry]

/-- Below the cap and without cancellation, scanning a file produces exactly
the reference hits `hitsSpecGo` with their display indices. -/
theorem scanLines_spec (cs : Bool) (q n : String) (k : Nat) (s : Session) :
    ∀ (lines : List Line) (mi : Nat) (acc : SearchAcc),
      acc.totalHits + countLineMatches cs n lines < k →
      ∃ mi' acc', scanLines cs q n k none s lines mi acc = some (mi', acc') ∧
        acc'.totalHits = acc.totalHits + countLineMatches cs n lines ∧
        acc'.bySession =
          (hitsSpecGo cs q n lines mi).foldl (fun m h => pushHit m s h) acc.bySession := by
  intro lines
  induction lines with
  | nil =>
    intro mi acc h
    exact ⟨mi, acc, rfl, by simp [countLineMatches], by simp [hitsSpecGo]⟩
  | cons l rest ih =>
    intro mi acc h
    have hcap : ¬ acc.totalHits ≥ k := by omega
    cases hcl : classifyLine cs n l with
    | skip =>
      have hcnt := countLineMatches_cons_nomatch cs n l rest (by simp [lineIsMatch, hcl])
      rw [hcnt] at h ⊢
      obtain ⟨mi', acc', heq, ht, hb⟩ :=
        ih mi ⟨acc.checks + 1, acc.totalHits, acc.bySession⟩ (by dsimp only; omega)
      refine ⟨mi', acc', ?_, by simpa using ht, ?_⟩
      · simp [scanLines, isCancelled, hcap, hcl, heq]
      · rw [hb]
        simp [hitsSpecGo, hcl]
    | message role text hitAt =>
      cases hitAt with
      | none =>
        have hcnt := countLineMatches_cons_nomatch cs n l rest (by simp [lineIsMatch, hcl])
        rw [hcnt] at h ⊢
        obtain ⟨mi', acc', heq, ht, hb⟩ :=
          ih (mi + 1) ⟨acc.checks + 1, acc.totalHits, acc.bySession⟩ (by dsimp only; omega)
        refine ⟨mi', acc', ?_, by simpa using ht, ?_⟩
        · simp [scanLines, isCancelled, hcap, hcl, heq]
        · rw [hb]
          simp [hitsSpecGo, hcl]
      | some pos =>
        have hcnt := countLineMatches_cons_match cs n l rest (by simp [lineIsMatch, hcl])
        rw [hcnt] at h ⊢
        have hcap2 : ¬ acc.totalHits + 1 ≥ k := by omega
        obtain ⟨mi', acc', heq, ht, hb⟩ :=
          ih (mi + 1)
            ⟨acc.checks + 1, acc.totalHits + 1, pushHit acc.bySession s
              ⟨mi + 1, role, singleLineSnippet (buildAround text pos q.length) 160⟩⟩
            (by dsimp only; omega)
        refine ⟨mi', acc', ?_, ?_, ?_⟩
        · simp [scanLines, isCancelled, hcap, hcl, hcap2, heq]
        · dsimp only at ht
          omega
        · rw [hb]
          simp [hitsSpecGo, hcl]

/-- C4 counterexample: in a file whose records are an empty-text user message
followed by the user message "hello world", the matching message is the second
`message` record with role user/assistant, yet its reported `displayIndex` is
1 — the empty-text message did not increment the counter, contradicting
"every such record increments the counter". -/
theorem c4_counterexample :
    (searchSessions [c4Session] "hello" 10 false none).map
        (fun r => r.sessions.map fun e => e.2.map fun h => h.messageIndex) =
      some [[1]] ∧
    (c4Session.lines.filter isUserAssistantMessage).length = 2 := by
  decide

/-- C4 amended: every user/assistant `message` record with non-empty
normalized text increments the per-file 1-based counter regardless of match
(`hitsSpecGo` assigns indices in exactly that way, and an uncapped scan of a
file reports exactly those hits); hits within a session are always ordered by
`displayIndex` ascending. -/
theorem c4_amended_display_index :
    (∀ (s : Session) (q : String) (cs : Bool) (k : Nat),
      countLineMatches cs (searchNeedle cs q) s.lines < k →
      ∃ out, searchSessions [s] q k cs none = some out ∧
        out.totalHits = countLineMatches cs (searchNeedle cs q) s.lines ∧
        out.sessions.map (fun e => e.2) =
          (if hitsSpec cs q s.lines = [] then [] else [hitsSpec cs q s.lines])) ∧
    (∀ (sessions : List Session) (q : String) (k : Nat) (cs : Bool)
        (out : SearchOutcome),
      searchSessions sessions q k cs none = some out →
      ∀ e ∈ out.sessions, List.Sorted hitBefore e.2) := by
  constructor
  · intro s q cs k hlt
    obtain ⟨mi', acc', heq, ht, hb⟩ :=
      scanLines_spec cs q (searchNeedle cs q) k s s.lines 0 ⟨1, 0, []⟩
        (by dsimp only; omega)
    have hgo : searchGo cs q (searchNeedle cs q) k none [s] ⟨0, 0, []⟩ = some acc' := by
      simp [searchGo, isCancelled, heq]
    have hb' : acc'.bySession = if hitsSpec cs q s.lines = [] then []
        else [(s.cacheKey, s, hitsSpec cs q s.lines)] := by
      rw [hb, foldl_pushHit_nil]
      rfl
    have hsorted := (hitsSpecGo_bounds cs q (searchNeedle cs q) s.lines 0).2
    have hs : searchSessions [s] q k cs none = some ⟨acc'.totalHits,
        (List.insertionSort sessionHitsBefore
          (acc'.bySession.map fun e => (e.2.1, e.2.2))).map
            (fun e => (e.1, List.insertionSort hitBefore e.2))⟩ := by
      simp only [searchSessions, hgo]
    refine ⟨_, hs, ?_, ?_⟩
    · dsimp only at ht ⊢
      omega
    · by_cases hsp : hitsSpec cs q s.lines = []
      · rw [hsp] at hb'
        simp only [if_pos rfl] at hb'
        simp [hb', hsp]
      · rw [if_neg hsp] at hb'
        have hsorted' : List.Sorted hitBefore (hitsSpec cs q s.lines) := hsorted
        simp only [hb', if_neg hsp]
        simp [List.insertionSort, List.orderedInsert,
          List.Sorted.insertionSort_eq hsorted']
  · intro sessions q k cs out hout e he
    simp only [searchSessions] at hout
    cases hgo : searchGo cs q (searchNeedle cs q) k none sessions ⟨0, 0, []⟩ with
    | none => rw [hgo] at hout; exact absurd hout (by simp)
    | some acc =>
      rw [hgo] at hout
      simp only [Option.some_inj] at hout
      subst hout
      simp only [List.mem_map] at he
      obtain ⟨e0, _, rfl⟩ := he
      exact List.sorted_insertionSort hitBefore e0.2

/-- C4 amended, witnessed: the scan of `wSession1` with a large cap reports
exactly the reference hits. -/
theorem c4_amended_witness :
    ∃ out, searchSessions [wSession1] "hello" 10 false none = some out ∧
      out.totalHits = countLineMatches false (searchNeedle false "hello") wSession1.lines ∧
      out.sessions.map (fun e => e.2) =
        (if hitsSpec false "hello" wSession1.lines = []
         then [] else [hitsSpec false "hello" wSession1.lines]) :=
  c4_amended_display_index.1 wSession1 "hello" false 10 (by decide)

/-- Without cancellation, scanning a file always completes. -/
theorem scanLines_none_total (cs : Bool) (q n : String) (k : Nat) (s : Session)
    (lines : List Line) (mi : Nat) (acc : SearchAcc) :
    ∃ r, scanLines cs q n k none s lines mi acc = some r := by
  by_cases h : acc.totalHits ≤ k
  · obtain ⟨mi', acc', heq, _⟩ := scanLines_total cs q n k s lines mi acc h
    exact ⟨(mi', acc'), heq⟩
  · obtain ⟨ch, heq⟩ := scanLines_capped cs q n k s lines mi acc (by omega)
    exact ⟨_, heq⟩

/-- Without cancellation, the whole search always completes. -/
theorem searchGo_none_total (cs : Bool) (q n : String) (k : Nat)
    (sessions : List Session) (acc : SearchAcc) :
    ∃ accf, searchGo cs q n k none sessions acc = some accf := by
  by_cases h : acc.totalHits ≤ k
  · obtain ⟨accf, heq, _⟩ := searchGo_total cs q n k sessions acc h
    exact ⟨accf, heq⟩
  · obtain ⟨ch, heq⟩ := searchGo_capped cs q n k sessions acc (by omega)
    exact ⟨_, heq⟩

/-- Cancellation threshold for the file scan: with a token firing from check
index `c`, the scan returns `none` exactly when the uncancelled run performs a
check with index at least `c`; otherwise it returns the uncancelled result. -/
theorem scanLines_cancel (cs : Bool) (q n : String) (k : Nat) (s : Session) :
    ∀ (lines : List Line) (mi : Nat) (acc : SearchAcc) (c : Nat),
      ∃ rf, scanLines cs q n k none s lines mi acc = some rf ∧
        acc.checks ≤ rf.2.checks ∧
        scanLines cs q n k (some c) s lines mi acc =
          (if acc.checks < rf.2.checks ∧ c < rf.2.checks then none else some rf) := by
  intro lines
  induction lines with
  | nil =>
    intro mi acc c
    refine ⟨(mi, acc), rfl, le_refl _, ?_⟩
    rw [if_neg (fun hh => lt_irrefl _ hh.1)]
    rfl
  | cons l rest ih =>
    intro mi acc c
    by_cases hcap : acc.totalHits ≥ k
    · refine ⟨(mi, ⟨acc.checks + 1, acc.totalHits, acc.bySession⟩), ?_, Nat.le_succ _, ?_⟩
      · simp [scanLines, isCancelled, hcap]
      · by_cases hc : c ≤ acc.checks
        · have h1 : scanLines cs q n k (some c) s (l :: rest) mi acc = none := by
            simp [scanLines, isCancelled, hc]
          rw [h1, if_pos ⟨Nat.lt_succ_self _, Nat.lt_succ_of_le hc⟩]
        · have h1 : scanLines cs q n k (some c) s (l :: rest) mi acc =
              some (mi, ⟨acc.checks + 1, acc.totalHits, acc.bySession⟩) := by
            simp [scanLines, isCancelled, hc, hcap]
          rw [h1, if_neg (fun hh => hc (Nat.lt_succ_iff.mp hh.2))]
    · have hstep : ∀ (mi2 : Nat) (tot2 : Nat)
          (by2 : List (String × Session × List SearchHit)),
          (∀ c2, ∃ rf, scanLines cs q n k none s rest mi2 ⟨acc.checks + 1, tot2, by2⟩ =
              some rf ∧ acc.checks + 1 ≤ rf.2.checks ∧
              scanLines cs q n k (some c2) s rest mi2 ⟨acc.checks + 1, tot2, by2⟩ =
                (if acc.checks + 1 < rf.2.checks ∧ c2 < rf.2.checks then none
                 else some rf)) →
          ∃ rf, scanLines cs q n k none s rest mi2 ⟨acc.checks + 1, tot2, by2⟩ =
            some rf ∧ acc.checks ≤ rf.2.checks ∧
            (¬ c ≤ acc.checks →
              scanLines cs q n k (some c) s rest mi2 ⟨acc.checks + 1, tot2, by2⟩ =
                (if acc.checks < rf.2.checks ∧ c < rf.2.checks then none
                 else some rf)) := by
        intro mi2 tot2 by2 hrec
        obtain ⟨rf, hfull, hmono, hcform⟩ := hrec c
        refine ⟨rf, hfull, by omega, ?_⟩
        intro hc
        have hc' : acc.checks < c := not_le.mp hc
        rw [hcform]
        by_cases hfin : c < rf.2.checks
        · rw [if_pos ⟨by omega, hfin⟩, if_pos ⟨by omega, hfin⟩]
        · rw [if_neg (fun hh => hfin hh.2), if_neg (fun hh => hfin hh.2)]
      cases hcl : classifyLine cs n l with
      | skip =>
        obtain ⟨rf, hfull, hmono, hcform⟩ := hstep mi acc.totalHits acc.bySession
          (fun c2 => by
            obtain ⟨rf, h1, h2, h3⟩ :=
              ih mi ⟨acc.checks + 1, acc.totalHits, acc.bySession⟩ c2
            exact ⟨rf, h1, h2, h3⟩)
        refine ⟨rf, ?_, hmono, ?_⟩
        · simp [scanLines, isCancelled, hcap, hcl, hfull]
        · by_cases hc : c ≤ acc.checks
          · have h1 : scanLines cs q n k (some c) s (l :: rest) mi acc = none := by
              simp [scanLines, isCancelled, hc]
            have hm1 : acc.checks + 1 ≤ rf.2.checks := by
              obtain ⟨rf2, h1', h2', _⟩ :=
                ih mi ⟨acc.checks + 1, acc.totalHits, acc.bySession⟩ c
              rw [h1'] at hfull
              cases hfull
              exact h2'
            rw [h1, if_pos ⟨by omega, by omega⟩]
          · have h1 : scanLines cs q n k (some c) s (l :: rest) mi acc =
                scanLines cs q n k (some c) s rest mi
                  ⟨acc.checks + 1, acc.totalHits, acc.bySession⟩ := by
              simp [scanLines, isCancelled, hc, hcap, hcl]
            rw [h1]
            exact hcform hc
      | message role text hitAt =>
        cases hitAt with
        | none =>
          obtain ⟨rf, hfull, hmono, hcform⟩ := hstep (mi + 1) acc.totalHits acc.bySession
            (fun c2 => by
              obtain ⟨rf, h1, h2, h3⟩ :=
                ih (mi + 1) ⟨acc.checks + 1, acc.totalHits, acc.bySession⟩ c2
              exact ⟨rf, h1, h2, h3⟩)
          refine ⟨rf, ?_, hmono, ?_⟩
          · simp [scanLines, isCancelled, hcap, hcl, hfull]
          · by_cases hc : c ≤ acc.checks
            · have h1 : scanLines cs q n k (some c) s (l :: rest) mi acc = none := by
                simp [scanLines, isCancelled, hc]
              have hm1 : acc.checks + 1 ≤ rf.2.checks := by
                obtain ⟨rf2, h1', h2', _⟩ :=
                  ih (mi + 1) ⟨acc.checks + 1, acc.totalHits, acc.bySession⟩ c
                rw [h1'] at hfull
                cases hfull
                exact h2'
              rw [h1, if_pos ⟨by omega, by omega⟩]
            · have h1 : scanLines cs q n k (some c) s (l :: rest) mi acc =
                  scanLines cs q n k (some c) s rest (mi + 1)
                    ⟨acc.checks + 1, acc.totalHits, acc.bySession⟩ := by
                simp [scanLines, isCancelled, hc, hcap, hcl]
              rw [h1]
              exact hcform hc
        | some pos =>
          by_cases hcap2 : acc.totalHits + 1 ≥ k
          · refine ⟨(mi + 1, ⟨acc.checks + 1, acc.totalHits + 1, pushHit acc.bySession s
                ⟨mi + 1, role, singleLineSnippet (buildAround text pos q.length) 160⟩⟩),
              ?_, Nat.le_succ _, ?_⟩
            · simp [scanLines, isCancelled, hcap, hcl, hcap2]
            · by_cases hc : c ≤ acc.checks
              · have h1 : scanLines cs q n k (some c) s (l :: rest) mi acc = none := by
                  simp [scanLines, isCancelled, hc]
                rw [h1, if_pos ⟨Nat.lt_succ_self _, Nat.lt_succ_of_le hc⟩]
              · have h1 : scanLines cs q n k (some c) s (l :: rest) mi acc =
                    some (mi + 1, ⟨acc.checks + 1, acc.totalHits + 1,
                      pushHit acc.bySession s ⟨mi + 1, role,
                        singleLineSnippet (buildAround text pos q.length) 160⟩⟩) := by
                  simp [scanLines, isCancelled, hc, hcap, hcl, hcap2]
                rw [h1, if_neg (fun hh => hc (Nat.lt_succ_iff.mp hh.2))]
          · obtain ⟨rf, hfull, hmono, hcform⟩ := hstep (mi + 1) (acc.totalHits + 1)
              (pushHit acc.bySession s
                ⟨mi + 1, role, singleLineSnippet (buildAround text pos q.length) 160⟩)
              (fun c2 => by
                obtain ⟨rf, h1, h2, h3⟩ :=
                  ih (mi + 1) ⟨acc.checks + 1, acc.totalHits + 1, pushHit acc.bySession s
                    ⟨mi + 1, role, singleLineSnippet (buildAround text pos q.length) 160⟩⟩ c2
                exact ⟨rf, h1, h2, h3⟩)
            refine ⟨rf, ?_, hmono, ?_⟩
            · simp [scanLines, isCancelled, hcap, hcl, hcap2, hfull]
            · by_cases hc : c ≤ acc.checks
              · have h1 : scanLines cs q n k (some c) s (l :: rest) mi acc = none := by
                  simp [scanLines, isCancelled, hc]
                have hm1 : acc.checks + 1 ≤ rf.2.checks := by
                  obtain ⟨rf2, h1', h2', _⟩ :=
                    ih (mi + 1) ⟨acc.checks + 1, acc.totalHits + 1, pushHit acc.bySession s
                      ⟨mi + 1, role, singleLineSnippet (buildAround text pos q.length) 160⟩⟩ c
                  rw [h1'] at hfull
                  cases hfull
                  exact h2'
                rw [h1, if_pos ⟨by omega, by omega⟩]
              · have h1 : scanLines cs q n k (some c) s (l :: rest) mi acc =
                    scanLines cs q n k (some c) s rest (mi + 1)
                      ⟨acc.checks + 1, acc.totalHits + 1, pushHit acc.bySession s
                        ⟨mi + 1, role,
                          singleLineSnippet (buildAround text pos q.length) 160⟩⟩ := by
                  simp [scanLines, isCancelled, hc, hcap, hcl, hcap2]
                rw [h1]
                exact hcform hc

/-- Cancellation threshold for the whole search: with a token firing from
check index `c`, the search returns `none` exactly when the uncancelled run
performs a check with index at least `c`; the first check happens at the first
file boundary. -/
theorem searchGo_cancel (cs : Bool) (q n : String) (k : Nat) :
    ∀ (sessions : List Session) (acc : SearchAcc) (c : Nat),
      ∃ accf, searchGo cs q n k none sessions acc = some accf ∧
        acc.checks ≤ accf.checks ∧
        (sessions ≠ [] → acc.checks < accf.checks) ∧
        searchGo cs q n k (some c) sessions acc =
          (if acc.checks < accf.checks ∧ c < accf.checks then none else some accf) := by
  intro sessions
  induction sessions with
  | nil =>
    intro acc c
    refine ⟨acc, rfl, le_refl _, fun h => absurd rfl h, ?_⟩
    rw [if_neg (fun hh => lt_irrefl _ hh.1)]
    rfl
  | cons s rest ih =>
    intro acc c
    obtain ⟨r, hscan, hsmono, hscanc⟩ :=
      scanLines_cancel cs q n k s s.lines 0 ⟨acc.checks + 1, acc.totalHits, acc.bySession⟩ c
    obtain ⟨accf, hgo, hgmono, _, hgoc⟩ := ih r.2 c
    have hm1 : acc.checks + 1 ≤ r.2.checks := hsmono
    refine ⟨accf, ?_, by omega, fun _ => by omega, ?_⟩
    · simp [searchGo, isCancelled, hscan, hgo]
    · by_cases hc : c ≤ acc.checks
      · have h1 : searchGo cs q n k (some c) (s :: rest) acc = none := by
          simp [searchGo, isCancelled, hc]
        rw [h1, if_pos ⟨by omega, by omega⟩]
      · have hc' : acc.checks < c := not_le.mp hc
        by_cases hsc : acc.checks + 1 < r.2.checks ∧ c < r.2.checks
        · have hscanc' : scanLines cs q n k (some c) s s.lines 0
              ⟨acc.checks + 1, acc.totalHits, acc.bySession⟩ = none := by
            rw [hscanc, if_pos hsc]
          have h1 : searchGo cs q n k (some c) (s :: rest) acc = none := by
            simp [searchGo, isCancelled, hc, hscanc']
          rw [h1, if_pos ⟨by omega, by omega⟩]
        · have hscanc' : scanLines cs q n k (some c) s s.lines 0
              ⟨acc.checks + 1, acc.totalHits, acc.bySession⟩ = some r := by
            rw [hscanc, if_neg hsc]
          have h1 : searchGo cs q n k (some c) (s :: rest) acc =
              searchGo cs q n k (some c) rest r.2 := by
            simp [searchGo, isCancelled, hc, hscanc']
          rw [h1, hgoc]
          by_cases hfin : c < accf.checks
          · have hrc : r.2.checks ≤ c := by
              rcases not_and_or.mp hsc with h | h
              · omega
              · omega
            rw [if_pos ⟨by omega, hfin⟩, if_pos ⟨by omega, hfin⟩]
          · rw [if_neg (fun hh => hfin hh.2), if_neg (fun hh => hfin hh.2)]

/-- C5: if the cancellation token is already set at the first file boundary
(in particular before any file is scanned), search returns `null` and no
partial results; more generally, whenever the token fires at any cancellation
check the search performs (file boundaries and before each line's match test),
the whole search returns `null`. -/
theorem c5_cancellation (sessions : List Session) (q : String) (k : Nat) (cs : Bool) :
    (sessions ≠ [] → searchSessions sessions q k cs (some 0) = none) ∧
    (∀ c, c < searchChecks sessions q k cs →
      searchSessions sessions q k cs (some c) = none) := by
  constructor
  · intro hne
    obtain ⟨accf, hgo, _, hpos, hgoc⟩ :=
      searchGo_cancel cs q (searchNeedle cs q) k sessions ⟨0, 0, []⟩ 0
    have hpos' : 0 < accf.checks := hpos hne
    rw [if_pos ⟨hpos', hpos'⟩] at hgoc
    simp [searchSessions, hgoc]
  · intro c hc
    obtain ⟨accf, hgo, _, _, hgoc⟩ :=
      searchGo_cancel cs q (searchNeedle cs q) k sessions ⟨0, 0, []⟩ c
    have hchecks : searchChecks sessions q k cs = accf.checks := by
      simp [searchChecks, hgo]
    have hc' : c < accf.checks := hchecks ▸ hc
    rw [if_pos ⟨Nat.lt_of_le_of_lt (Nat.zero_le c) hc', hc'⟩] at hgoc
    simp [searchSessions, hgoc]

/-- C5 witnessed: a token already set before any check cancels the search over
two non-empty candidates. -/
theorem c5_witness :
    searchSessions [wSession1, wSession2] "hello" 5 false (some 0) = none :=
  (c5_cancellation [wSession1, wSession2] "hello" 5 false).1
    (List.cons_ne_nil _ _)

/-- A stat-able file always yields a summary (only a failed stat aborts). -/
theorem buildSessionSummary_some (tz : Int) (root p : String) (pm : Nat)
    (fd : FileData) (st : Stat) (h : fd.stat = some st) :
    ∃ s, buildSessionSummary tz root p pm fd = some s := by
  simp only [buildSessionSummary, h]
  exact ⟨_, rfl⟩

/-- Looking up the key just written. -/
theorem alLookup_alUpsert_self {β : Type} (m : List (String × β)) (k : String) (v : β) :
    alLookup (alUpsert m k v) k = some v := by
  induction m with
  | nil => simp [alUpsert, alLookup]
  | cons e rest ih =>
    by_cases hk : e.1 = k
    · simp [alUpsert, alLookup, hk]
    · simp [alUpsert, alLookup, hk, ih]

/-- Writing one key leaves the other keys' lookups unchanged. -/
theorem alLookup_alUpsert_other {β : Type} (m : List (String × β)) (k k' : String)
    (v : β) (h : k' ≠ k) :
    alLookup (alUpsert m k v) k' = alLookup m k' := by
  induction m with
  | nil => simp [alUpsert, alLookup, Ne.symm h]
  | cons e rest ih =>
    by_cases hk : e.1 = k
    · have hne : e.1 ≠ k' := fun hh => h (hh.symm.trans hk)
      simp [alUpsert, alLookup, hk, hne, Ne.symm h]
    · by_cases hk' : e.1 = k'
      · simp [alUpsert, alLookup, hk, hk', h]
      · simp [alUpsert, alLookup, hk, hk', ih]

/-- The reconciliation trace: the Extractor is invoked exactly for the
discovered, stat-able paths whose reuse test fails. -/
theorem reconcileGo_extracted (tz : Int) (root : String) (pm : Nat)
    (fileData : String → FileData) (cached : List (String × CacheEntryV1)) :
    ∀ (files : List String) (r : ReconcileResult),
      (reconcileGo tz root pm fileData cached files r).extracted =
        r.extracted ++ files.filter (shouldExtract cached fileData) := by
  intro files
  induction files with
  | nil => intro r; simp [reconcileGo]
  | cons p rest ih =>
    intro r
    cases hstat : (fileData p).stat with
    | none => simp [reconcileGo, hstat, ih, shouldExtract]
    | some st =>
      cases hreuse : reuseEntry? cached p st with
      | some e => simp [reconcileGo, hstat, hreuse, ih, shouldExtract]
      | none =>
        obtain ⟨s, hb⟩ := buildSessionSummary_some tz root p pm (fileData p) st hstat
        simp [reconcileGo, hstat, hreuse, hb, ih, shouldExtract]

/-- Paths whose keys are untouched by the loop keep their stored entries. -/
theorem reconcileGo_lookup_untouched (tz : Int) (root : String) (pm : Nat)
    (fileData : String → FileData) (cached : List (String × CacheEntryV1)) :
    ∀ (files : List String) (r : ReconcileResult) (key : String),
      (∀ p ∈ files, normalizeCacheKey p ≠ key) →
      alLookup (reconcileGo tz root pm fileData cached files r).nextEntries key =
        alLookup r.nextEntries key := by
  intro files
  induction files with
  | nil => intro r key _; simp [reconcileGo]
  | cons p rest ih =>
    intro r key hkeys
    have hp : normalizeCacheKey p ≠ key := hkeys p (List.mem_cons_self p rest)
    have hrest : ∀ q ∈ rest, normalizeCacheKey q ≠ key :=
      fun q hq => hkeys q (List.mem_cons_of_mem p hq)
    cases hstat : (fileData p).stat with
    | none => simp [reconcileGo, hstat, ih _ _ hrest]
    | some st =>
      cases hreuse : reuseEntry? cached p st with
      | some e =>
        simp [reconcileGo, hstat, hreuse, ih _ _ hrest,
          alLookup_alUpsert_other _ _ _ _ (Ne.symm hp)]
      | none =>
        obtain ⟨s, hb⟩ := buildSessionSummary_some tz root p pm (fileData p) st hstat
        simp [reconcileGo, hstat, hreuse, hb, ih _ _ hrest,
          alLookup_alUpsert_other _ _ _ _ (Ne.symm hp)]

/-- The entry stored for a discovered, stat-able path: the reused cache entry
when the reuse test passes, else a fresh entry carrying the current
fingerprint and the Extractor's summary. -/
theorem reconcileGo_lookup (tz : Int) (root : String) (pm : Nat)
    (fileData : String → FileData) (cached : List (String × CacheEntryV1)) :
    ∀ (files : List String) (r : ReconcileResult) (p : String) (st : Stat),
      p ∈ files → (fileData p).stat = some st →
      (files.map normalizeCacheKey).Nodup →
      ∃ e, alLookup (reconcileGo tz root pm fileData cached files r).nextEntries
          (normalizeCacheKey p) = some e ∧
        (∀ ce, reuseEntry? cached p st = some ce → e = ce) ∧
        (reuseEntry? cached p st = none →
          ∃ s, buildSessionSummary tz root p pm (fileData p) = some s ∧
            e = ⟨st.mtimeMs, st.size, s⟩) := by
  intro files
  induction files with
  | nil => intro r p st hmem; exact absurd hmem (List.not_mem_nil p)
  | cons q rest ih =>
    intro r p st hmem hstat hnd
    have hnd' : (rest.map normalizeCacheKey).Nodup := (List.nodup_cons.mp hnd).2
    have hqrest : normalizeCacheKey q ∉ rest.map normalizeCacheKey :=
      (List.nodup_cons.mp hnd).1
    rcases List.mem_cons.mp hmem with rfl | hmem'
    · have huntouched : ∀ q' ∈ rest, normalizeCacheKey q' ≠ normalizeCacheKey p :=
        fun q' hq' he => hqrest (he ▸ List.mem_map_of_mem normalizeCacheKey hq')
      cases hreuse : reuseEntry? cached p st with
      | some e =>
        refine ⟨e, ?_, fun ce hce => Option.some_inj.mp hce,
          fun hn => absurd hn (by simp)⟩
        have : (reconcileGo tz root pm fileData cached (p :: rest) r) =
            reconcileGo tz root pm fileData cached rest
              ⟨alUpsert r.nextEntries (normalizeCacheKey p) e,
               r.summaries ++ [e.summary], r.extracted⟩ := by
          simp [reconcileGo, hstat, hreuse]
        rw [this, reconcileGo_lookup_untouched tz root pm fileData cached rest _ _
          huntouched]
        exact alLookup_alUpsert_self _ _ _
      | none =>
        obtain ⟨s, hb⟩ := buildSessionSummary_some tz root p pm (fileData p) st hstat
        refine ⟨⟨st.mtimeMs, st.size, s⟩, ?_, fun ce hce => absurd hce (by simp),
          fun _ => ⟨s, hb, rfl⟩⟩
        have : (reconcileGo tz root pm fileData cached (p :: rest) r) =
            reconcileGo tz root pm fileData cached rest
              ⟨alUpsert r.nextEntries (normalizeCacheKey p) ⟨st.mtimeMs, st.size, s⟩,
               r.summaries ++ [s], r.extracted ++ [p]⟩ := by
          simp [reconcileGo, hstat, hreuse, hb]
        rw [this, reconcileGo_lookup_untouched tz root pm fileData cached rest _ _
          huntouched]
        exact alLookup_alUpsert_self _ _ _
    · have hqp : normalizeCacheKey q ≠ normalizeCacheKey p :=
        fun he => hqrest (he ▸ List.mem_map_of_mem normalizeCacheKey hmem')
      cases hstatq : (fileData q).stat with
      | none =>
        have : (reconcileGo tz root pm fileData cached (q :: rest) r) =
            reconcileGo tz root pm fileData cached rest r := by
          simp [reconcileGo, hstatq]
        rw [this]
        exact ih r p st hmem' hstat hnd'
      | some stq =>
        cases hreuseq : reuseEntry? cached q stq with
        | some e =>
          have : (reconcileGo tz root pm fileData cached (q :: rest) r) =
              reconcileGo tz root pm fileData cached rest
                ⟨alUpsert r.nextEntries (normalizeCacheKey q) e,
                 r.summaries ++ [e.summary], r.extracted⟩ := by
            simp [reconcileGo, hstatq, hreuseq]
          rw [this]
          exact ih _ p st hmem' hstat hnd'
        | none =>
          obtain ⟨s, hb⟩ := buildSessionSummary_some tz root q pm (fileData q) stq hstatq
          have : (reconcileGo tz root pm fileData cached (q :: rest) r) =
              reconcileGo tz root pm fileData cached rest
                ⟨alUpsert r.nextEntries (normalizeCacheKey q) ⟨stq.mtimeMs, stq.size, s⟩,
                 r.summaries ++ [s], r.extracted ++ [q]⟩ := by
            simp [reconcileGo, hstatq, hreuseq, hb]
          rw [this]
          exact ih _ p st hmem' hstat hnd'

/-- The spec-shaped reuse condition coincides with the code's reuse test. -/
theorem reuseCondition_iff (loaded : Option CacheFileV4) (force : Bool)
    (root : String) (pm : Nat) (dtKey : String) (p : String) (st : Stat) :
    reuseCondition loaded force root pm dtKey p st ↔
      (reuseEntry? (cachedEntriesOf (if force then none else loaded) root pm dtKey)
        p st).isSome := by
  unfold reuseCondition reuseEntry? cachedEntriesOf
  cases force with
  | true =>
    simp [alLookup]
  | false =>
    cases loaded with
    | none => simp [alLookup]
    | some cf =>
      simp only [if_neg (by simp : ¬ (false = true))]
      constructor
      · rintro ⟨-, c, hc, h4, halgo, hroot, hpm, hkey, e, hlook, hmt, hsz⟩
        cases hc
        rw [if_pos ⟨h4, halgo, hroot, hpm, hkey⟩, hlook]
        simp [hmt, hsz]
      · intro h
        by_cases hhdr : cf.version = 4 ∧ cf.summaryAlgoVersion = summaryCacheAlgoVersion ∧
            cf.sessionsRoot = root ∧ cf.previewMaxMessages = pm ∧
            cf.dateTimeSettingsKey = dtKey
        · rw [if_pos hhdr] at h
          cases hlook : alLookup cf.entries (normalizeCacheKey p) with
          | none => rw [hlook] at h; simp at h
          | some e =>
            rw [hlook] at h
            by_cases hfp : e.mtimeMs = st.mtimeMs ∧ e.size = st.size
            · exact ⟨trivial, cf, rfl, hhdr.1, hhdr.2.1, hhdr.2.2.1, hhdr.2.2.2.1,
                hhdr.2.2.2.2, e, hlook, hfp.1, hfp.2⟩
            · simp [hfp] at h
        · rw [if_neg hhdr] at h
          simp [alLookup] at h

/-- C6: during reconciliation, a discovered stat-able path's stored summary is
reused without re-invoking the Extractor if and only if no forced rebuild is
requested, the loaded cache's five header fields all match the current
configuration, and a prior entry under the path's cache key carries a
fingerprint identical to the file's current (mtime, size); otherwise the
Extractor is invoked and (keys being distinct) a fresh entry with the current
fingerprint and the fresh summary is stored, while a reused entry is stored
unchanged. -/
theorem c6_cache_reuse (tz : Int) (root : String) (pm : Nat) (dtKey : String)
    (fileData : String → FileData) (loaded : Option CacheFileV4) (force : Bool)
    (files : List String) :
    (∀ p st, p ∈ files → (fileData p).stat = some st →
      (p ∉ (reconcile tz root pm dtKey fileData loaded force files).extracted ↔
        reuseCondition loaded force root pm dtKey p st)) ∧
    ((files.map normalizeCacheKey).Nodup →
      ∀ p st, p ∈ files → (fileData p).stat = some st →
      ∃ e, alLookup (reconcile tz root pm dtKey fileData loaded force files).nextEntries
          (normalizeCacheKey p) = some e ∧
        (∀ ce, reuseEntry? (cachedEntriesOf (if force then none else loaded) root pm dtKey)
            p st = some ce → e = ce) ∧
        (reuseEntry? (cachedEntriesOf (if force then none else loaded) root pm dtKey)
            p st = none →
          ∃ s, buildSessionSummary tz root p pm (fileData p) = some s ∧
            e = ⟨st.mtimeMs, st.size, s⟩)) := by
  constructor
  · intro p st hmem hstat
    rw [reuseCondition_iff loaded force root pm dtKey p st]
    unfold reconcile
    rw [reconcileGo_extracted]
    simp only [List.nil_append, List.mem_filter]
    constructor
    · intro hnot
      by_cases hsome : (reuseEntry? (cachedEntriesOf (if force then none else loaded)
          root pm dtKey) p st).isSome
      · exact hsome
      · exact absurd ⟨hmem, by
          simp only [shouldExtract, hstat]
          exact Option.not_isSome_iff_eq_none.mp hsome ▸ rfl⟩ hnot
    · intro hsome hmemf
      have : shouldExtract (cachedEntriesOf (if force then none else loaded) root pm dtKey)
          fileData p = false := by
        simp only [shouldExtract, hstat]
        cases hr : reuseEntry? (cachedEntriesOf (if force then none else loaded)
            root pm dtKey) p st with
        | none => rw [hr] at hsome; simp at hsome
        | some e => simp
      rw [this] at hmemf
      exact absurd hmemf.2 (by simp)
  · intro hnd p st hmem hstat
    exact reconcileGo_lookup tz root pm fileData
      (cachedEntriesOf (if force then none else loaded) root pm dtKey) files
      ⟨[], [], []⟩ p st hmem hstat hnd

/-- C6 witnessed: a matching header and an identical fingerprint skip the
Extractor for the C1 scenario file. -/
theorem c6_witness :
    c1Path ∉ (reconcile 0 c1Root 5 "sys" c6FileData (some c6Cache) false
      [c1Path]).extracted :=
  ((c6_cache_reuse 0 c1Root 5 "sys" c6FileData (some c6Cache) false [c1Path]).1 c1Path
      ⟨1714557600000, 300⟩ (by decide) (by decide)).mpr
    ⟨rfl, c6Cache, rfl, rfl, rfl, rfl, rfl, rfl,
      ⟨1714557600000, 300, idxSummaryA⟩, by decide, rfl, rfl⟩

/-- Looking up the key just updated. -/
theorem alLookup_alUpdate_self {β : Type} (m : List (String × β)) (k : String)
    (f : Option β → β) :
    alLookup (alUpdate m k f) k = some (f (alLookup m k)) := by
  induction m with
  | nil => simp [alUpdate, alLookup]
  | cons e rest ih =>
    by_cases hk : e.1 = k
    · simp [alUpdate, alLookup, hk]
    · simp [alUpdate, alLookup, hk, ih]

/-- Updating one key leaves the other keys' lookups unchanged. -/
theorem alLookup_alUpdate_other {β : Type} (m : List (String × β)) (k k' : String)
    (f : Option β → β) (h : k' ≠ k) :
    alLookup (alUpdate m k f) k' = alLookup m k' := by
  induction m with
  | nil => simp [alUpdate, alLookup, Ne.symm h]
  | cons e rest ih =>
    by_cases hk : e.1 = k
    · have hne : e.1 ≠ k' := fun hh => h (hh.symm.trans hk)
      simp [alUpdate, alLookup, hk, hne, Ne.symm h]
    · by_cases hk' : e.1 = k'
      · simp [alUpdate, alLookup, hk, hk', h]
      · simp [alUpdate, alLookup, hk, hk', ih]

/-- Lookup commutes with mapping the values of an association list. -/
theorem alLookup_map_snd {β γ : Type} (g : β → γ) :
    ∀ (m : List (String × β)) (k : String),
      alLookup (m.map fun e => (e.1, g e.2)) k = (alLookup m k).map g := by
  intro m k
  induction m with
  | nil => simp [alLookup]
  | cons e rest ih =>
    by_cases hk : e.1 = k
    · simp [alLookup, hk]
    · simp [alLookup, hk, ih]

/-- One bucketing step appends the summary to exactly the bucket of its date
keys. -/
theorem dayBucket_indexInsert (idx : HistoryIndex) (s : SessionSummary)
    (y m d : String) :
    dayBucket (indexInsert idx s) y m d =
      dayBucket idx y m d ++
        (if splitYmdKeys s.localDate = some (y, m, d) then [s] else []) := by
  unfold indexInsert
  cases hk : splitYmdKeys s.localDate with
  | none => simp
  | some t =>
    obtain ⟨y', m', d'⟩ := t
    unfold dayBucket
    dsimp only
    by_cases hy : y = y'
    · subst hy
      rw [alLookup_alUpdate_self, Option.getD_some]
      by_cases hm : m = m'
      · subst hm
        rw [alLookup_alUpdate_self, Option.getD_some]
        by_cases hd : d = d'
        · subst hd
          rw [alLookup_alUpdate_self, Option.getD_some, if_pos rfl]
        · rw [alLookup_alUpdate_other _ _ _ _ hd]
          have hcond : ¬ (some (y, m, d') = some (y, m, d)) := by
            intro hh
            injection hh with hh'
            exact hd (congrArg (fun t => t.2.2) hh').symm
          rw [if_neg hcond, List.append_nil]
      · rw [alLookup_alUpdate_other _ _ _ _ hm]
        have hcond : ¬ (some (y, m', d') = some (y, m, d)) := by
          intro hh
          injection hh with hh'
          exact hm (congrArg (fun t => t.2.1) hh').symm
        rw [if_neg hcond, List.append_nil]
    · rw [alLookup_alUpdate_other _ _ _ _ hy]
      have hcond : ¬ (some (y', m', d') = some (y, m, d)) := by
        intro hh
        injection hh with hh'
        exact hy (congrArg Prod.fst hh').symm
      rw [if_neg hcond, List.append_nil]

/-- Bucketing a list of summaries appends to each bucket exactly the summaries
whose date keys match. -/
theorem dayBucket_foldl (l : List SessionSummary) :
    ∀ (idx : HistoryIndex) (y m d : String),
      dayBucket (l.foldl indexInsert idx) y m d =
        dayBucket idx y m d ++
          l.filter (fun s => decide (splitYmdKeys s.localDate = some (y, m, d))) := by
  induction l with
  | nil => intro idx y m d; simp
  | cons s rest ih =>
    intro idx y m d
    simp only [List.foldl_cons]
    rw [ih, dayBucket_indexInsert]
    by_cases h : splitYmdKeys s.localDate = some (y, m, d) <;>
      simp [h, List.append_assoc]

/-- `buildIndex` keeps the (pre-sorted) summaries as its flat list. -/
theorem buildIndex_sessions (root : String) (l : List SessionSummary) :
    (buildIndex root l).sessions = l := rfl

/-- Sorting the day lists sorts each bucket. -/
theorem dayBucket_sortDayLists (idx : HistoryIndex) (y m d : String) :
    dayBucket (sortDayLists idx) y m d =
      List.insertionSort timeBefore (dayBucket idx y m d) := by
  unfold sortDayLists dayBucket
  dsimp only
  rw [alLookup_map_snd]
  cases alLookup idx.byY y with
  | none => simp [alLookup]
  | some months =>
    simp only [Option.map_some', Option.getD_some]
    rw [alLookup_map_snd]
    cases alLookup months m with
    | none => simp [alLookup]
    | some days =>
      simp only [Option.map_some', Option.getD_some]
      rw [alLookup_map_snd]
      cases alLookup days d with
      | none => simp
      | some l => simp

/-- The bucket contents of a built index: the matching summaries, sorted by
time label descending. -/
theorem dayBucket_buildIndex (root : String) (l : List SessionSummary)
    (y m d : String) :
    dayBucket (buildIndex root l) y m d =
      List.insertionSort timeBefore
        (l.filter fun s => decide (splitYmdKeys s.localDate = some (y, m, d))) := by
  unfold buildIndex
  rw [dayBucket_sortDayLists]
  have : dayBucket { l.foldl indexInsert (emptyIndex root) with sessions := l } y m d =
      dayBucket (l.foldl indexInsert (emptyIndex root)) y m d := rfl
  rw [this, dayBucket_foldl]
  simp [dayBucket, emptyIndex, alLookup]

/-- A digit character for values below ten. -/
theorem digitChar_isDigit (n : Nat) (h : n < 10) : (digitChar n).isDigit := by
  interval_cases n <;> decide

/-- Digit characters are never a dash. -/
theorem isDigit_ne_dash (c : Char) (h : c.isDigit) : c ≠ '-' := by
  intro he
  rw [he] at h
  exact absurd h (by decide)

/-- All characters produced by the digit renderer are digits. -/
theorem natDigitsAux_digits :
    ∀ (fuel n : Nat), ∀ c ∈ natDigitsAux fuel n, c.isDigit := by
  intro fuel
  induction fuel with
  | zero => intro n c hc; simp [natDigitsAux] at hc
  | succ f ih =>
    intro n c hc
    simp only [natDigitsAux] at hc
    by_cases h : n < 10
    · rw [if_pos h] at hc
      rcases List.mem_singleton.mp hc with rfl
      exact digitChar_isDigit n h
    · rw [if_neg h] at hc
      rcases List.mem_append.mp hc with hc | hc
      · exact ih (n / 10) c hc
      · rcases List.mem_singleton.mp hc with rfl
        exact digitChar_isDigit (n % 10) (Nat.mod_lt n (by omega))

/-- The digit renderer never yields the empty list (with positive fuel). -/
theorem natDigitsAux_ne_nil (fuel n : Nat) (h : 1 ≤ fuel) :
    natDigitsAux fuel n ≠ [] := by
  cases fuel with
  | zero => omega
  | succ f =>
    simp only [natDigitsAux]
    by_cases h10 : n < 10
    · simp [h10]
    · simp [h10]

/-- A nonnegative year renders with digit characters only. -/
theorem intToString_nonneg_digits (i : Int) (h : 0 ≤ i) :
    ∀ c ∈ (intToString i).data, c.isDigit := by
  intro c hc
  unfold intToString at hc
  rw [if_neg (by omega)] at hc
  exact natDigitsAux_digits _ _ c hc

/-- A nonnegative year renders non-empty. -/
theorem intToString_nonneg_ne_nil (i : Int) (h : 0 ≤ i) :
    (intToString i).data ≠ [] := by
  unfold intToString
  rw [if_neg (by omega)]
  exact natDigitsAux_ne_nil _ _ (by omega)

/-- `pad2` renders with digit characters only. -/
theorem pad2_digits (n : Nat) : ∀ c ∈ (pad2 n).data, c.isDigit := by
  intro c hc
  unfold pad2 at hc
  by_cases h : n < 10
  · rw [if_pos h] at hc
    rcases List.mem_append.mp hc with hc | hc
    · rcases List.mem_singleton.mp hc with rfl
      decide
    · exact natDigitsAux_digits _ _ c hc
  · rw [if_neg h] at hc
    exact natDigitsAux_digits _ _ c hc

/-- `pad2` renders non-empty. -/
theorem pad2_ne_nil (n : Nat) : (pad2 n).data ≠ [] := by
  unfold pad2
  by_cases h : n < 10
  · simp [h, natToString]
  · rw [if_neg h]
    exact natDigitsAux_ne_nil _ _ (by omega)

/-- Splitting a separator-free segment. -/
theorem splitOnCharGo_no_sep (sep : Char) :
    ∀ (cs cur : List Char), (∀ c ∈ cs, c ≠ sep) →
      splitOnCharGo sep cs cur = [⟨cur.reverse ++ cs⟩] := by
  intro cs
  induction cs with
  | nil => intro cur _; simp [splitOnCharGo]
  | cons c rest ih =>
    intro cur h
    have hc : c ≠ sep := h c (List.mem_cons_self c rest)
    rw [splitOnCharGo, if_neg hc, ih (c :: cur) (fun x hx => h x (List.mem_cons_of_mem c hx))]
    simp

/-- Splitting at the first separator after a separator-free segment. -/
theorem splitOnCharGo_sep_split (sep : Char) :
    ∀ (a rest cur : List Char), (∀ c ∈ a, c ≠ sep) →
      splitOnCharGo sep (a ++ sep :: rest) cur =
        (⟨cur.reverse ++ a⟩ : String) :: splitOnCharGo sep rest [] := by
  intro a
  induction a with
  | nil => intro rest cur _; simp [splitOnCharGo]
  | cons c t ih =>
    intro rest cur h
    have hc : c ≠ sep := h c (List.mem_cons_self c t)
    rw [List.cons_append, splitOnCharGo, if_neg hc,
      ih rest (c :: cur) (fun x hx => h x (List.mem_cons_of_mem c hx))]
    simp

/-- The bucket keys of a `ymdToString` date: the unpadded decimal year and the
two zero-padded components. -/
theorem splitYmdKeys_ymdToString (ymd : Ymd) (hy : 0 ≤ ymd.year) :
    splitYmdKeys (ymdToString ymd) =
      some (intToString ymd.year, pad2 ymd.month, pad2 ymd.day) := by
  have hdata : (ymdToString ymd).data =
      (intToString ymd.year).data ++ '-' ::
        ((pad2 ymd.month).data ++ '-' :: (pad2 ymd.day).data) := by
    unfold ymdToString
    simp [String.data_append]
  unfold splitYmdKeys splitOnChar
  rw [hdata]
  rw [splitOnCharGo_sep_split '-' _ _ []
    (fun c hc => isDigit_ne_dash c (intToString_nonneg_digits _ hy c hc))]
  rw [splitOnCharGo_sep_split '-' _ _ []
    (fun c hc => isDigit_ne_dash c (pad2_digits _ c hc))]
  rw [splitOnCharGo_no_sep '-' _ []
    (fun c hc => isDigit_ne_dash c (pad2_digits _ c hc))]
  simp only [List.reverse_nil, List.nil_append]
  have h1 : (⟨(intToString ymd.year).data⟩ : String) = intToString ymd.year := rfl
  have h2 : (⟨(pad2 ymd.month).data⟩ : String) = pad2 ymd.month := rfl
  have h3 : (⟨(pad2 ymd.day).data⟩ : String) = pad2 ymd.day := rfl
  rw [h1, h2, h3]
  have hne1 : intToString ymd.year ≠ "" := by
    intro he
    exact intToString_nonneg_ne_nil _ hy (congrArg String.data he)
  have hne2 : pad2 ymd.month ≠ "" := by
    intro he
    exact pad2_ne_nil _ (congrArg String.data he)
  have hne3 : pad2 ymd.day ≠ "" := by
    intro he
    exact pad2_ne_nil _ (congrArg String.data he)
  simp [hne1, hne2, hne3]

/-- C9 counterexample: a session whose `session_meta` timestamp has year 999
(no date in its path) gets `localDate = "999-01-01"`, and the built index's
year bucket key is the three-character string `"999"` — not a zero-padded
fixed-width string, because `ymdToString` renders the year unpadded. -/
theorem c9_counterexample :
    c9Summary.localDate = "999-01-01" ∧
    (refreshIndex "/root" [c9Summary]).byY.map Prod.fst = ["999"] ∧
    ¬ (∀ key ∈ (refreshIndex "/root" [c9Summary]).byY.map Prod.fst,
        key.length = 4) := by
  decide

/-- C9 amended: the flat list is sorted newest-first by `localDate` (string
order) with ties broken by `timeLabel` descending and is a permutation of the
input; a summary lies in the (y, m, d) bucket exactly when those are the split
components of its display date (hence in exactly one bucket when its date
splits); each day bucket is sorted by time label descending; and the bucket
keys of a `ymdToString` date are the zero-padded two-character month and day
with the year rendered unpadded (fixed-width only for four-digit years). -/
theorem c9_index_invariants (root : String) (sums : List SessionSummary) :
    ((refreshIndex root sums).sessions.Pairwise (fun a b =>
        b.localDate ≤ a.localDate ∧
          (a.localDate = b.localDate → b.timeLabel ≤ a.timeLabel)) ∧
      List.Perm (refreshIndex root sums).sessions sums) ∧
    (∀ (s : SessionSummary) (y m d : String),
      s ∈ dayBucket (refreshIndex root sums) y m d ↔
        (s ∈ (refreshIndex root sums).sessions ∧
          splitYmdKeys s.localDate = some (y, m, d))) ∧
    (∀ y m d, List.Sorted timeBefore (dayBucket (refreshIndex root sums) y m d)) ∧
    (∀ ymd : Ymd, 0 ≤ ymd.year → ymd.month < 100 → ymd.day < 100 →
      splitYmdKeys (ymdToString ymd) =
        some (intToString ymd.year, pad2 ymd.month, pad2 ymd.day) ∧
      (pad2 ymd.month).length = 2 ∧ (pad2 ymd.day).length = 2) := by
  have hsess : (refreshIndex root sums).sessions =
      List.insertionSort summaryBefore sums := by
    unfold refreshIndex
    exact buildIndex_sessions root _
  refine ⟨⟨?_, ?_⟩, ?_, ?_, ?_⟩
  · rw [hsess]
    refine List.Pairwise.imp ?_ (List.sorted_insertionSort summaryBefore sums)
    intro a b hab
    rcases hab with h | ⟨heq, ht⟩
    · exact ⟨le_of_lt h, fun he => absurd (he ▸ h) (lt_irrefl _)⟩
    · exact ⟨le_of_eq heq.symm, fun _ => ht⟩
  · rw [hsess]
    exact List.perm_insertionSort summaryBefore sums
  · intro s y m d
    unfold refreshIndex
    rw [dayBucket_buildIndex, buildIndex_sessions]
    rw [(List.perm_insertionSort timeBefore _).mem_iff, List.mem_filter]
    constructor
    · intro hmem
      exact ⟨hmem.1, by simpa using hmem.2⟩
    · intro hmem
      exact ⟨hmem.1, by simpa using hmem.2⟩
  · intro y m d
    unfold refreshIndex
    rw [dayBucket_buildIndex]
    exact List.sorted_insertionSort timeBefore _
  · intro ymd hy hm hd
    exact ⟨splitYmdKeys_ymdToString ymd hy, pad2_length_two _ hm, pad2_length_two _ hd⟩

/-- C9 amended, witnessed: the C1 scenario summary lands in exactly the bucket
(2024, 05, 01) of the built index. -/
theorem c9_witness :
    idxSummaryA ∈ dayBucket (refreshIndex "/root" [idxSummaryA]) "2024" "05" "01" :=
  ((c9_index_invariants "/root" [idxSummaryA]).2.1 idxSummaryA "2024" "05" "01").mpr
    ⟨by decide, by decide⟩

end CodexHistory
